import Mathlib

/-!
Verification development for a repository of three computational-geometry
programs:

* `a1/main.py` — divide-and-conquer planar convex hull over a mutable
  `cw`/`ccw` pointer structure (`build_hull`, `turn`);
* `a2/main.py` — triangle-mesh reading with validation (`read_triangles`)
  and greedy triangle-strip covering (`build_tristrips`);
* `a3/main.py` — minimum-area triangulation of the band between two
  polygonal slices by dynamic programming (`buildTriangles`), with 3D
  vector helpers (`crossProduct`, `normalize`, `triangleArea`, ...).

Python floats are modelled by exact arithmetic: `ℚ` for the planar
programs (whose tests are sign-of-determinant computations) and `ℝ` for
the 3D program (which takes square roots).  Python object identity is
modelled by integer identifiers; the mutable pointer fields (`cw_point`,
`ccw_point`, `next_tri`, `prev_tri`, `nextV`, the `Triangle.nextID`
counter) live in explicit state records threaded through the functions.
A Python `None` pointer is `Option.none`; an uncaught Python exception
(assertion failure, `IndexError`, `raise`) is a `none` result.
-/

namespace A1

/-- A 2D point of `a1/main.py`; `Point.x`/`Point.y` of the source.  The
mutable `ccw_point`/`cw_point` fields are kept separately in `HullState`,
indexed by the point's position in the (sorted) point list. -/
structure Pt where
  x : ℚ
  y : ℚ
deriving DecidableEq, Repr

/-- The three outcomes of the orientation test (`LEFT_TURN`, `RIGHT_TURN`,
`COLLINEAR` in the source). -/
inductive TurnDir where
  | LEFT_TURN
  | RIGHT_TURN
  | COLLINEAR
deriving DecidableEq, Repr

/-- Source `turn(a, b, c)`: sign of the determinant
`(a.x-c.x)*(b.y-c.y) - (b.x-c.x)*(a.y-c.y)`. -/
def turn (a b c : Pt) : TurnDir :=
  let det := (a.x - c.x) * (b.y - c.y) - (b.x - c.x) * (a.y - c.y)
  if 0 < det then .LEFT_TURN
  else if det < 0 then .RIGHT_TURN
  else .COLLINEAR

/-- The mutable `cw_point`/`ccw_point` fields of all points, indexed by
position in the global (sorted) point list.  `none` is Python `None`. -/
structure HullState where
  cw : Nat → Option Nat
  ccw : Nat → Option Nat

/-- Freshly constructed points: both neighbour pointers `None`. -/
def initState : HullState := ⟨fun _ => none, fun _ => none⟩

/-- Assignment `points[i].cw_point = v`. -/
def setCw (st : HullState) (i : Nat) (v : Option Nat) : HullState :=
  ⟨fun j => if j = i then v else st.cw j, st.ccw⟩

/-- Assignment `points[i].ccw_point = v`. -/
def setCcw (st : HullState) (i : Nat) (v : Option Nat) : HullState :=
  ⟨st.cw, fun j => if j = i then v else st.ccw j⟩

/-- `old_points.add(i)` where `old_points` is a Python set (membership is
object identity, i.e. index equality). -/
def addOld (old : List Nat) (i : Nat) : List Nat :=
  if i ∈ old then old else i :: old

/-- Look a point up through an optional index (a `None` pointer, or an
index outside the list, gives `none`). -/
def ptOf (pts : List Pt) (o : Option Nat) : Option Pt :=
  o.bind pts.get?

/-- The "walk up" loop of the merge step in `build_hull`.  `l`, `r` are
the current left/right walking points; `old` is the accumulated
`old_points` set.  A `none` result models a failed assertion inside
`turn` (a `None` argument) or fuel exhaustion; the fuel passed by
`merge` covers every terminating run of the source loop. -/
def walkUp (pts : List Pt) (st : HullState) :
    Nat → Nat → Nat → List Nat → Option (Nat × Nat × List Nat)
  | 0, _, _, _ => none
  | fuel + 1, l, r, old =>
    match ptOf pts (st.ccw l), pts.get? l, pts.get? r with
    | some plccw, some pl, some pr =>
      if turn plccw pl pr = .LEFT_TURN then
        match st.ccw l with
        | some l2 => walkUp pts st fuel l2 r (addOld old l)
        | none => none
      else
        match ptOf pts (st.cw r) with
        | some prcw =>
          if turn pl pr prcw = .LEFT_TURN then
            match st.cw r with
            | some r2 => walkUp pts st fuel l r2 (addOld old r)
            | none => none
          else some (l, r, old)
        | none => none
    | _, _, _ => none

/-- The "walk down" loop of the merge step: same shape as `walkUp` with
the roles of `cw`/`ccw` swapped and `RIGHT_TURN` tests. -/
def walkDown (pts : List Pt) (st : HullState) :
    Nat → Nat → Nat → List Nat → Option (Nat × Nat × List Nat)
  | 0, _, _, _ => none
  | fuel + 1, l, r, old =>
    match ptOf pts (st.cw l), pts.get? l, pts.get? r with
    | some plcw, some pl, some pr =>
      if turn plcw pl pr = .RIGHT_TURN then
        match st.cw l with
        | some l2 => walkDown pts st fuel l2 r (addOld old l)
        | none => none
      else
        match ptOf pts (st.ccw r) with
        | some prccw =>
          if turn pl pr prccw = .RIGHT_TURN then
            match st.ccw r with
            | some r2 => walkDown pts st fuel l r2 (addOld old r)
            | none => none
          else some (l, r, old)
        | none => none
    | _, _, _ => none

/-- Clear the `cw`/`ccw` pointers of every recorded interior point
(`point.cw_point = None; point.ccw_point = None` in the source). -/
def clearOld (old : List Nat) (st : HullState) : HullState :=
  old.foldl (fun s i => setCcw (setCw s i none) i none) st

/-- The merge step of `build_hull` on the index range `[lo, hi)` split at
`mid`: `left_points[-1]` is index `mid - 1`, `right_points[0]` is `mid`. -/
def merge (pts : List Pt) (lo mid hi : Nat) (st : HullState) :
    Option HullState :=
  match walkUp pts st (hi - lo + 1) (mid - 1) mid [] with
  | none => none
  | some (topL, topR, old1) =>
    match walkDown pts st (hi - lo + 1) (mid - 1) mid old1 with
    | none => none
    | some (botL, botR, old2) =>
      let st1 := setCw st topL (some topR)
      let st2 := setCcw st1 topR (some topL)
      let st3 := setCcw st2 botL (some botR)
      let st4 := setCw st3 botR (some botL)
      let oldFinal := old2.filter
        (fun i => ¬ (i = topR ∨ i = topL ∨ i = botR ∨ i = botL))
      some (clearOld oldFinal st4)

/-- Base case of `build_hull` for two points: mutual bidirectional link. -/
def link2 (i j : Nat) (st : HullState) : HullState :=
  setCcw (setCw (setCcw (setCw st i (some j)) i (some j)) j (some i)) j (some i)

/-- Base case of `build_hull` for three points `lo, lo+1, lo+2`: link a
3-cycle according to `turn`; exactly collinear triples take the
"right turn" branch, as in the source. -/
def link3 (pts : List Pt) (lo : Nat) (st : HullState) : Option HullState :=
  match pts.get? lo, pts.get? (lo + 1), pts.get? (lo + 2) with
  | some p0, some p1, some p2 =>
    if turn p0 p1 p2 = .LEFT_TURN then
      some (setCw (setCcw (setCw (setCcw (setCw (setCcw st lo (some (lo+1)))
        lo (some (lo+2))) (lo+1) (some (lo+2))) (lo+1) (some lo))
        (lo+2) (some lo)) (lo+2) (some (lo+1)))
    else
      some (setCcw (setCw (setCcw (setCw (setCcw (setCw st lo (some (lo+1)))
        lo (some (lo+2))) (lo+1) (some (lo+2))) (lo+1) (some lo))
        (lo+2) (some lo)) (lo+2) (some (lo+1)))
  | _, _, _ => none

/-- Source `build_hull`, acting on the index range `[lo, hi)` of the
global sorted point list (Python list slices alias the point objects, so
all mutation happens in the one shared state).  On ranges of fewer than
two points the Python source recurses forever; that divergence is
modelled by `none` (such a range is never reached from a top-level call
with at least two points).  The `fuel` parameter makes the halving
recursion structural; `fuel = hi - lo` covers every recursive call,
since each half of a range of length at least 4 is strictly shorter
than the range. -/
def buildHullF (pts : List Pt) :
    Nat → Nat → Nat → HullState → Option HullState
  | 0, _, _, _ => none
  | fuel + 1, lo, hi, st =>
    if hi - lo < 2 then none
    else if hi - lo = 2 then
      some (link2 lo (lo + 1) st)
    else if hi - lo = 3 then
      link3 pts lo st
    else
      let mid := lo + (hi - lo) / 2
      match buildHullF pts fuel lo mid st with
      | none => none
      | some st1 =>
        match buildHullF pts fuel mid hi st1 with
        | none => none
        | some st2 => merge pts lo mid hi st2

/-- `build_hull(points[lo:hi])` with adequate fuel. -/
def buildHull (pts : List Pt) (lo hi : Nat) (st : HullState) :
    Option HullState :=
  buildHullF pts (hi - lo) lo hi st

end A1

namespace A2

/-- Turn outcomes of `a2/main.py` (`LEFT_TURN`, `RIGHT_TURN`, `COLLINEAR`). -/
inductive TurnDir where
  | LEFT_TURN
  | RIGHT_TURN
  | COLLINEAR
deriving DecidableEq, Repr

/-- Source `turn(a, b, c)` of `a2/main.py`, where the arguments are
coordinate lists; an access past the end of a coordinate list is a Python
`IndexError`, modelled by `none`.  Vertex coordinates are modelled by
integers (the validation logic inspects only token counts and index
ranges, never coordinate magnitudes). -/
def turn (a b c : List ℤ) : Option TurnDir := do
  let a0 ← a.get? 0
  let a1 ← a.get? 1
  let b0 ← b.get? 0
  let b1 ← b.get? 1
  let c0 ← c.get? 0
  let c1 ← c.get? 1
  let det := (a0 - c0) * (b1 - c1) - (b0 - c0) * (a1 - c1)
  pure (if 0 < det then .LEFT_TURN else if det < 0 then .RIGHT_TURN else .COLLINEAR)

/-- Python list indexing `l[i]` with an `int` index: negative indices
count from the end; out-of-range is an `IndexError` (`none`). -/
def pyGet (l : List α) (i : ℤ) : Option α :=
  if 0 ≤ i then l.get? i.toNat
  else if 0 ≤ (l.length : ℤ) + i then l.get? ((l.length : ℤ) + i).toNat
  else none

/-- The defects reported by `read_triangles` (the printed messages
"vertex does not have two coordinates.", "triangle does not have three
vertices.", "Vertex index is not in range [0,N-1].") . -/
inductive Defect where
  | vertexNotTwoCoords
  | triangleNotThreeVertices
  | vertexIndexNotInRange
deriving DecidableEq, Repr

/-- A built `Triangle` of `a2/main.py`: its raw vertex-index record, the
centroid computed in `Triangle.__init__`, and (after the adjacency pass)
the `adj_tris` list as positions in the built-triangle list.  The global
id counter is not modelled (no claim observes it). -/
structure PTri where
  verts : List ℤ
  centroid : ℚ × ℚ
  adj : List Nat
deriving DecidableEq, Repr

/-- Centroid computation of `Triangle.__init__`:
`sum(allVerts[i][j] for i in verts) / len(verts)` for `j = 0, 1`.  Every
`allVerts[i]` access and every coordinate access may raise. -/
def centroidOf (allVerts : List (List ℤ)) (tvs : List ℤ) : Option (ℚ × ℚ) := do
  let vs ← tvs.mapM (pyGet allVerts)
  let xs ← vs.mapM (fun v => v.get? 0)
  let ys ← vs.mapM (fun v => v.get? 1)
  pure ((xs.sum : ℚ) / (tvs.length : ℚ), (ys.sum : ℚ) / (tvs.length : ℚ))

/-- The triangle-building loop of `read_triangles`: keep each record
whose three (dereferenced) vertices are not collinear; building a kept
record computes its centroid.  Any `IndexError` aborts (`none`). -/
def buildTris (allVerts : List (List ℤ)) (triVerts : List (List ℤ)) :
    Option (List (List ℤ × ℚ × ℚ)) :=
  triVerts.foldlM (fun acc tvs => do
    let t0 ← tvs.get? 0
    let t1 ← tvs.get? 1
    let t2 ← tvs.get? 2
    let v0 ← pyGet allVerts t0
    let v1 ← pyGet allVerts t1
    let v2 ← pyGet allVerts t2
    let td ← turn v0 v1 v2
    if td ≠ .COLLINEAR then
      let c ← centroidOf allVerts tvs
      pure (acc ++ [(tvs, c)])
    else
      pure acc) []

/-- The hashed edge map of `read_triangles`: for each triangle (in list
order) and each directed edge `(v0, v1)` of its first three vertices,
record the triangle's position (later writers win, as in a Python dict).
The `f"{v0:f}-{v1:f}"` string key is injective on integer pairs, so the
key is modelled as the pair itself. -/
def edgeMap (tris : List (List ℤ × ℚ × ℚ)) : ℤ × ℤ → Option Nat :=
  (List.range tris.length).foldl (fun m idx =>
    (List.range 3).foldl (fun m2 i =>
      let vs := (tris.getD idx ([], 0, 0)).1
      let v0 := vs.getD (i % 3) 0
      let v1 := vs.getD ((i + 1) % 3) 0
      fun k => if k = (v0, v1) then some idx else m2 k) m)
    (fun _ => none)

/-- The adjacency pass of `read_triangles`: each triangle looks up the
reversal of each of its directed edges in the edge map.  (The early
`break` of the source can fire only after the third and final lookup, so
it never changes the result.)  Built triangles always have at least
three vertex entries — shorter records fault in `buildTris` — so the
`getD` defaults are never taken. -/
def fillAdj (tris : List (List ℤ × ℚ × ℚ)) : List PTri :=
  let em := edgeMap tris
  tris.map (fun t =>
    let adj := (List.range 3).foldl (fun acc i =>
      let v1 := t.1.getD (i % 3) 0
      let v0 := t.1.getD ((i + 1) % 3) 0
      match em (v0, v1) with
      | some j => acc ++ [j]
      | none => acc) []
    ⟨t.1, t.2, adj⟩)

/-- Source `read_triangles`.  The input is the file's lines, each line
already tokenised into its numeric fields (string-to-number parsing is
presentation glue; coordinates are restricted to integer values, which
the function never inspects beyond counting tokens and comparing vertex
indices).  The result is `none` if the run dies of an uncaught
exception before the checks complete (a count header that is not a
single nonnegative integer); otherwise it is the list of reported
defects, each with the 1-based line number printed for it, paired with
`none` if the triangle-building phase raises an `IndexError`, or with
the returned list (`[]` as soon as any defect was found). -/
def readTriangles (lines : List (List ℤ)) :
    Option (List (Nat × Defect) × Option (List PTri)) := do
  let hv ← lines.get? 0
  match hv with
  | [nvz] =>
    if nvz < 0 then none else
    let numVerts := nvz.toNat
    let allVerts := (lines.drop 1).take numVerts
    let vertexReports := (List.range allVerts.length).filterMap (fun i =>
      if (allVerts.getD i []).length ≠ 2 then
        some (i + 2, Defect.vertexNotTwoCoords)
      else none)
    let ht ← lines.get? (numVerts + 1)
    match ht with
    | [_] =>
      let triVerts := lines.drop (numVerts + 2)
      let triReports := (List.range triVerts.length).flatMap (fun j =>
        let tvs := triVerts.getD j []
        if tvs.length ≠ 3 then [(j + 2 + numVerts, Defect.triangleNotThreeVertices)]
        else tvs.filterMap (fun v =>
          if v < 0 ∨ nvz ≤ v then some (j + 2 + numVerts, Defect.vertexIndexNotInRange)
          else none))
      let reports := vertexReports ++ triReports
      match buildTris allVerts triVerts with
      | none => pure (reports, none)
      | some tris =>
        if reports ≠ [] then pure (reports, some [])
        else pure (reports, some (fillAdj tris))
    | _ => none
  | _ => none

end A2

namespace A2

/-- The mutable `next_tri`/`prev_tri` fields of all triangles, indexed
by triangle identifier (Python object identity).  `none` is `None`. -/
structure StripState where
  next : Nat → Option Nat
  prev : Nat → Option Nat

/-- Assignment `tri.next_tri = v`. -/
def setNext (st : StripState) (i : Nat) (v : Option Nat) : StripState :=
  ⟨fun j => if j = i then v else st.next j, st.prev⟩

/-- Assignment `tri.prev_tri = v`. -/
def setPrev (st : StripState) (i : Nat) (v : Option Nat) : StripState :=
  ⟨st.next, fun j => if j = i then v else st.prev j⟩

/-- Source `count_adj_non_strip_triangles(triangle)`: the number of
entries of `triangle.adj_tris` whose `next_tri` is unset (counted with
multiplicity over the adjacency list, as the source's `sum` does). -/
def countAdjNonStrip (adj : Nat → List Nat) (st : StripState) (t : Nat) : Nat :=
  (adj t).countP (fun u => (st.next u).isNone)

/-- Python's `min(pool, key=count)` scan: keep the first element whose
key is minimal (a later element replaces the best only on a strictly
smaller key). -/
def minFold (adj : Nat → List Nat) (st : StripState) :
    List Nat → Nat → Nat
  | [], best => best
  | t :: rest, best =>
    if countAdjNonStrip adj st t < countAdjNonStrip adj st best then
      minFold adj st rest t
    else
      minFold adj st rest best

/-- One recorded call of `get_triangle_with_min_adj_non_strip_triangles`
during `build_tristrips`: whether it starts a new strip, the strip tail
being extended (if any), the candidate pool handed to `min`, the
`non_strip_triangles` set at that moment, and the triangle chosen. -/
structure Event where
  isStart : Bool
  tail : Option Nat
  pool : List Nat
  remaining : List Nat
  chosen : Nat
deriving DecidableEq, Repr

/-- The interleaved outer ("start a new strip") and inner ("extend the
strip") loops of `build_tristrips`.  `remaining` is the
`non_strip_triangles` set, kept as a duplicate-free list (Python's set
iteration order is implementation-defined; the list order is the
deterministic stand-in for it).  `tl = some c` means the inner loop is
running with strip tail `c`; `tl = none` means control is at the outer
loop test.  Each recursive step consumes one unit of fuel; the fuel
supplied by `buildTristrips` covers the whole run, and an exhausted-fuel
result (never reached from `buildTristrips`) returns the state as is. -/
def go (adj : Nat → List Nat) :
    Nat → StripState → List Nat → Option Nat → Nat → List Event →
    StripState × Nat × List Event
  | 0, st, _, _, cnt, evs => (st, cnt, evs)
  | fuel + 1, st, remaining, none, cnt, evs =>
    match remaining with
    | [] => (st, cnt, evs)
    | r0 :: rrest =>
      let c := minFold adj st rrest r0
      let ev : Event := ⟨true, none, remaining, remaining, c⟩
      go adj fuel st (remaining.erase c) (some c) (cnt + 1) (evs ++ [ev])
  | fuel + 1, st, remaining, some cur, cnt, evs =>
    let cands := (adj cur).dedup.filter (· ∈ remaining)
    match cands with
    | [] => go adj fuel st remaining none cnt evs
    | c0 :: crest =>
      let c := minFold adj st crest c0
      let ev : Event := ⟨false, some cur, cands, remaining, c⟩
      let st2 := setPrev (setNext st cur (some c)) c (some cur)
      go adj fuel st2 (remaining.erase c) (some c) cnt (evs ++ [ev])

/-- Source `build_tristrips` on triangles `tris` (as identifiers) with
adjacency lists `adj`, starting from pointer state `st0`: returns the
final pointer state, the printed strip count, and the recorded selection
events.  `2 * n + 1` steps of `go` suffice: each step either removes a
triangle from `non_strip_triangles` or moves from the inner loop back to
the outer one. -/
def buildTristrips (tris : List Nat) (adj : Nat → List Nat)
    (st0 : StripState) : StripState × Nat × List Event :=
  go adj (2 * tris.dedup.length + 1) st0 tris.dedup none 0 []

/-- `k`-fold iteration of the `next_tri` pointer. -/
def nextIter (st : StripState) : Nat → Nat → Option Nat
  | 0, t => some t
  | k + 1, t =>
    match st.next t with
    | none => none
    | some u => nextIter st k u

/-- The number of still-unassigned triangles adjacent to `t`, where
"unassigned" means membership in the current `non_strip_triangles` set
(this is the quantity the specification's greedy rule speaks about). -/
def unassignedAdjCount (adj : Nat → List Nat) (remaining : List Nat)
    (t : Nat) : Nat :=
  (adj t).countP (fun u => u ∈ remaining)

/-- The loop invariant of `build_tristrips` over the duplicate-free
triangle list `tds`, the pointer state, the `non_strip_triangles` set
and the current strip tail (`none` when control is at the outer loop).
`sealed` captures that a finished strip tail (or singleton strip) has no
unassigned neighbours left — that is exactly why the strip ended. -/
structure StripInv (adj : Nat → List Nat) (tds : List Nat)
    (st : StripState) (remaining : List Nat) (tl : Option Nat) : Prop where
  fresh : ∀ t ∈ remaining, st.next t = none ∧ st.prev t = none
  consist : ∀ a b, st.next a = some b ↔ st.prev b = some a
  linkDom : ∀ a b, st.next a = some b →
    a ∈ tds ∧ b ∈ tds ∧ b ∈ adj a ∧ a ∈ adj b
  acyclic : ∀ t k, 0 < k → nextIter st k t ≠ some t
  remSub : ∀ t ∈ remaining, t ∈ tds
  tailSpec : ∀ c, tl = some c → c ∈ tds ∧ c ∉ remaining ∧ st.next c = none
  sealed : ∀ a, a ∈ tds → a ∉ remaining → st.next a = none →
    tl ≠ some a → ∀ u ∈ adj a, u ∉ remaining
  chains : ∀ t ∈ tds, t ∉ remaining →
    ∃! h, st.prev h = none ∧ ∃ k, nextIter st k h = some t

end A2

namespace A3

/-- A 3D vector / coordinate triple (`[x, y, z]` lists in `a3/main.py`). -/
structure Vec3 where
  x : ℝ
  y : ℝ
  z : ℝ

/-- Source `add(v0, v1)`. -/
def add (v0 v1 : Vec3) : Vec3 := ⟨v0.x + v1.x, v0.y + v1.y, v0.z + v1.z⟩

/-- Source `subtract(v0, v1)`. -/
def subtract (v0 v1 : Vec3) : Vec3 := ⟨v0.x - v1.x, v0.y - v1.y, v0.z - v1.z⟩

/-- Source `scalarMult(k, v)`. -/
def scalarMult (k : ℝ) (v : Vec3) : Vec3 := ⟨k * v.x, k * v.y, k * v.z⟩

/-- Source `dotProduct(v0, v1)`. -/
def dotProduct (v0 v1 : Vec3) : ℝ := v0.x * v1.x + v0.y * v1.y + v0.z * v1.z

/-- Source `crossProduct(v0, v1)`. -/
def crossProduct (v0 v1 : Vec3) : Vec3 :=
  ⟨v0.y * v1.z - v0.z * v1.y, v0.z * v1.x - v0.x * v1.z,
   v0.x * v1.y - v0.y * v1.x⟩

/-- Source `length(v)` (Euclidean norm). -/
noncomputable def length (v : Vec3) : ℝ :=
  Real.sqrt (v.x * v.x + v.y * v.y + v.z * v.z)

/-- Source `normalize(v)`: divides by the length when it exceeds
`0.0001`, and otherwise returns `v` unchanged. -/
noncomputable def normalize (v : Vec3) : Vec3 :=
  let d := length v
  if 1 / 10000 < d then ⟨v.x / d, v.y / d, v.z / d⟩ else v

/-- Source `triangleArea(v0, v1, v2)`. -/
noncomputable def triangleArea (v0 v1 v2 : Vec3) : ℝ :=
  1 / 2 * length (crossProduct (subtract v1 v0) (subtract v2 v0))

/-- The mutable object graph of `a3/main.py`: vertex coordinates and
`nextV` pointers (by vertex id), the `verts` lists of the slices (by
slice id), and the global `Triangle.nextID` counter. -/
structure A3State where
  coords : Nat → Vec3
  nextV : Nat → Option Nat
  sliceVerts : Nat → List Nat
  triNextID : Nat

/-- A spatial `Triangle`: vertex references (ids), the normal computed
once at creation, and the id drawn from the global counter. -/
structure Triangle where
  verts : Nat × Nat × Nat
  norm : Vec3
  id : Nat

/-- Source `Triangle.__init__`: stores the vertices, computes
`normalize(crossProduct(verts[1]-verts[0], verts[2]-verts[0]))` once,
and draws and bumps the global id counter (the only state change). -/
noncomputable def mkTriangle (st : A3State) (v0 v1 v2 : Nat) :
    A3State × Triangle :=
  let t : Triangle :=
    ⟨(v0, v1, v2),
     normalize (crossProduct
       (subtract (st.coords v1) (st.coords v0))
       (subtract (st.coords v2) (st.coords v0))),
     st.triNextID⟩
  ({ st with triNextID := st.triNextID + 1 }, t)

/-- One comparison of the brute-force closest-pair search in
`buildTriangles`.  The accumulator's first component is the best
distance so far, with `none` standing for the initial `math.inf`
(every real distance is below `math.inf`, so the first comparison
always updates). -/
noncomputable def closestStep (st : A3State) (acc : Option ℝ × Nat × Nat)
    (v0 v1 : Nat) : Option ℝ × Nat × Nat :=
  let d := length (subtract (st.coords v0) (st.coords v1))
  match acc.1 with
  | none => (some d, v0, v1)
  | some m => if d < m then (some d, v0, v1) else acc

/-- The brute-force search for the closest pair of vertices, one from
each slice, in `buildTriangles` (outer loop over `slice_0.verts`, inner
loop over `slice_1.verts`, strict `<`, so the first minimising pair in
iteration order is kept).  The initial pair is
`(slice_0.verts[0], slice_1.verts[0])`; callers guarantee both lists
are nonempty, so the `headD` defaults are never taken. -/
noncomputable def closestPair (st : A3State) (v0s v1s : List Nat) :
    Nat × Nat :=
  (v0s.foldl (fun acc v0 => v1s.foldl (fun a v1 => closestStep st a v0 v1) acc)
    (none, v0s.headD 0, v1s.headD 0)).2

/-- The cyclic permutation of a slice's vertex list used by
`buildTriangles`: rotate to start at `v` and append the start vertex
again at the end (`verts[i:] + verts[:i+1]` with `i = verts.index(v)`). -/
def cyclic (verts : List Nat) (v : Nat) : List Nat :=
  let i := verts.indexOf v
  verts.drop i ++ verts.take (i + 1)

/-- `slice_0_cyclic_verts` as computed by `buildTriangles` for slices
`s0`, `s1`. -/
noncomputable def cyclic0 (st : A3State) (s0 s1 : Nat) : List Nat :=
  cyclic (st.sliceVerts s0)
    (closestPair st (st.sliceVerts s0) (st.sliceVerts s1)).1

/-- `slice_1_cyclic_verts` as computed by `buildTriangles`. -/
noncomputable def cyclic1 (st : A3State) (s0 s1 : Nat) : List Nat :=
  cyclic (st.sliceVerts s1)
    (closestPair st (st.sliceVerts s0) (st.sliceVerts s1)).2

/-- The direction tags stored in `minDir` (`Dir.PREV_ROW`,
`Dir.PREV_COL`). -/
inductive Dir where
  | PREV_ROW
  | PREV_COL
deriving DecidableEq, Repr

/-- The `minArea` array, as a cell-indexed function. -/
abbrev Tab := Nat → Nat → ℝ

/-- The `minDir` array; `none` models the `-1` the cells are
initialised with before a direction is stored. -/
abbrev DTab := Nat → Nat → Option Dir

/-- Single-cell array assignment `table[r][c] = v`. -/
def upd2 {α : Type} (t : Nat → Nat → α) (r c : Nat) (v : α) :
    Nat → Nat → α :=
  fun r2 c2 => if r2 = r ∧ c2 = c then v else t r2 c2

/-- The row-0 fill loop of `buildTriangles`
(`for col in range(1, len(slice_0_cyclic_verts))`), run up to column
`n`: each column stores `Dir.PREV_COL` and
`minArea[0][col-1] + area(slice1[0], slice0[col], slice0[col-1])`. -/
noncomputable def row0Fill (crd : Nat → Vec3) (s0c s1c : List Nat) :
    Nat → Tab × DTab → Tab × DTab
  | 0, td => td
  | n + 1, td =>
    let td2 := row0Fill crd s0c s1c n td
    let a := triangleArea (crd (s1c.getD 0 0)) (crd (s0c.getD (n + 1) 0))
      (crd (s0c.getD n 0))
    (upd2 td2.1 0 (n + 1) (td2.1 0 n + a),
     upd2 td2.2 0 (n + 1) (some .PREV_COL))

/-- The column-0 fill loop of `buildTriangles`
(`for row in range(1, len(slice_1_cyclic_verts))`), run up to row `n`:
each row stores `Dir.PREV_ROW` and
`minArea[row-1][0] + area(slice1[row], slice1[row-1], slice0[0])`. -/
noncomputable def col0Fill (crd : Nat → Vec3) (s0c s1c : List Nat) :
    Nat → Tab × DTab → Tab × DTab
  | 0, td => td
  | n + 1, td =>
    let td2 := col0Fill crd s0c s1c n td
    let a := triangleArea (crd (s1c.getD (n + 1) 0)) (crd (s1c.getD n 0))
      (crd (s0c.getD 0 0))
    (upd2 td2.1 (n + 1) 0 (td2.1 n 0 + a),
     upd2 td2.2 (n + 1) 0 (some .PREV_ROW))

/-- The general cell update of the double fill loop: compare the
previous-row candidate against the previous-column candidate, store the
minimum, and store `PREV_ROW` exactly when the previous-row candidate is
strictly smaller (so an exact tie stores `PREV_COL`). -/
noncomputable def genCell (crd : Nat → Vec3) (s0c s1c : List Nat)
    (r c : Nat) (td : Tab × DTab) : Tab × DTab :=
  let fromRow := td.1 (r - 1) c + triangleArea (crd (s1c.getD r 0))
    (crd (s0c.getD c 0)) (crd (s1c.getD (r - 1) 0))
  let fromCol := td.1 r (c - 1) + triangleArea (crd (s1c.getD r 0))
    (crd (s0c.getD c 0)) (crd (s0c.getD (c - 1) 0))
  (upd2 td.1 r c (min fromRow fromCol),
   upd2 td.2 r c (some (if fromRow < fromCol then .PREV_ROW else .PREV_COL)))

/-- The inner loop (`for col in range(1, ...)`) of the general fill,
for a fixed row `r`, run up to column `n`. -/
noncomputable def genRowFill (crd : Nat → Vec3) (s0c s1c : List Nat)
    (r : Nat) : Nat → Tab × DTab → Tab × DTab
  | 0, td => td
  | n + 1, td => genCell crd s0c s1c r (n + 1) (genRowFill crd s0c s1c r n td)

/-- The outer loop (`for row in range(1, ...)`) of the general fill, run
up to row `m`, each row filled across columns `1..cmax`. -/
noncomputable def genFill (crd : Nat → Vec3) (s0c s1c : List Nat)
    (cmax : Nat) : Nat → Tab × DTab → Tab × DTab
  | 0, td => td
  | m + 1, td => genRowFill crd s0c s1c (m + 1) cmax (genFill crd s0c s1c cmax m td)

/-- The completely filled `minArea`/`minDir` tables of `buildTriangles`:
both arrays start filled with `-1` (no direction), `minArea[0][0] = 0`,
then the row-0 loop, the column-0 loop, and the general double loop run
in source order. -/
noncomputable def fillTables (crd : Nat → Vec3) (s0c s1c : List Nat) :
    Tab × DTab :=
  let init : Tab × DTab := (upd2 (fun _ _ => -1) 0 0 0, fun _ _ => none)
  genFill crd s0c s1c (s0c.length - 1) (s1c.length - 1)
    (col0Fill crd s0c s1c (s1c.length - 1)
      (row0Fill crd s0c s1c (s0c.length - 1) init))

/-- The backward reconstruction walk of `buildTriangles`, from cell
`(r, c)` down to `(0, 0)`, emitting one `Triangle` per step from
`(slice1[row], slice0[col], third)` where `third` is determined by the
stored direction.  The `none` results model the source's
`raise Exception` (no stored direction) and the row or column index
going negative (never reached: every cell the walk can visit stores a
direction that keeps it inside the table).  Each step consumes one unit
of fuel and decreases `r + c` by one; the fuel supplied by
`buildTriangles` covers the whole walk.  -/
noncomputable def walkBack (s0c s1c : List Nat) (dt : DTab) :
    Nat → A3State → Nat → Nat → List Triangle →
    A3State × Option (List Triangle)
  | 0, st, _, _, _ => (st, none)
  | _ + 1, st, 0, 0, acc => (st, some acc)
  | fuel + 1, st, r2 + 1, c2 + 1, acc =>
    match dt (r2 + 1) (c2 + 1) with
    | some .PREV_ROW =>
      let p := mkTriangle st (s1c.getD (r2 + 1) 0) (s0c.getD (c2 + 1) 0)
        (s1c.getD r2 0)
      walkBack s0c s1c dt fuel p.1 r2 (c2 + 1) (acc ++ [p.2])
    | some .PREV_COL =>
      let p := mkTriangle st (s1c.getD (r2 + 1) 0) (s0c.getD (c2 + 1) 0)
        (s0c.getD c2 0)
      walkBack s0c s1c dt fuel p.1 (r2 + 1) c2 (acc ++ [p.2])
    | none => (st, none)
  | fuel + 1, st, r2 + 1, 0, acc =>
    match dt (r2 + 1) 0 with
    | some .PREV_ROW =>
      let p := mkTriangle st (s1c.getD (r2 + 1) 0) (s0c.getD 0 0)
        (s1c.getD r2 0)
      walkBack s0c s1c dt fuel p.1 r2 0 (acc ++ [p.2])
    | _ => (st, none)
  | fuel + 1, st, 0, c2 + 1, acc =>
    match dt 0 (c2 + 1) with
    | some .PREV_COL =>
      let p := mkTriangle st (s1c.getD 0 0) (s0c.getD (c2 + 1) 0) (s0c.getD c2 0)
      walkBack s0c s1c dt fuel p.1 0 c2 (acc ++ [p.2])
    | _ => (st, none)

/-- Source `buildTriangles(slice_0, slice_1)` (slices given by id).  An
empty slice makes the initial `verts[0]` access raise (`none` result);
otherwise the closest seam pair is found, both vertex lists are
cyclically rotated with the seam vertex repeated at the end, the DP
tables are filled, and the reconstruction walk emits the triangles.
The returned state carries the `Triangle.nextID` bumps of the created
triangles. -/
noncomputable def buildTriangles (st : A3State) (s0 s1 : Nat) :
    A3State × Option (List Triangle) :=
  match st.sliceVerts s0, st.sliceVerts s1 with
  | [], _ => (st, none)
  | _, [] => (st, none)
  | _ :: _, _ :: _ =>
    let s0c := cyclic0 st s0 s1
    let s1c := cyclic1 st s0 s1
    let td := fillTables st.coords s0c s1c
    walkBack s0c s1c td.2 ((s1c.length - 1) + (s0c.length - 1) + 1) st
      (s1c.length - 1) (s0c.length - 1) []

end A3


namespace A1

/-- The point set `{(0,0),(4,0),(4,4),(0,4),(2,2)}` of the spec's worked
example, pre-sorted ascending by `(x, y)`:
index 0 ↦ (0,0), 1 ↦ (0,4), 2 ↦ (2,2), 3 ↦ (4,0), 4 ↦ (4,4). -/
def examplePoints : List Pt := [⟨0, 0⟩, ⟨0, 4⟩, ⟨2, 2⟩, ⟨4, 0⟩, ⟨4, 4⟩]

/-- Three collinear points with pairwise distinct coordinates, sorted
ascending by `(x, y)`. -/
def collinearTriple : List Pt := [⟨0, 0⟩, ⟨1, 1⟩, ⟨2, 2⟩]

end A1

namespace A3

/-- A concrete object graph whose two slices (ids 0 and 1) hold one
vertex each (ids 10 and 20), all coordinates at the origin. -/
noncomputable def stPoint : A3State :=
  ⟨fun _ => ⟨0, 0, 0⟩, fun _ => none,
   fun s => if s = 0 then [10] else [20], 0⟩

/-- A concrete object graph holding a nondegenerate triangle:
vertex 0 at the origin, vertex 1 at (1,0,0), vertex 2 at (0,1,0). -/
noncomputable def stUnit : A3State :=
  ⟨fun i => if i = 0 then ⟨0, 0, 0⟩ else if i = 1 then ⟨1, 0, 0⟩ else ⟨0, 1, 0⟩,
   fun _ => none, fun _ => [], 0⟩

end A3

namespace A1

/-- C8: on the input point set `{(0,0),(4,0),(4,4),(0,4),(2,2)}` sorted
ascending by `(x, then y)` — indices 0:(0,0), 1:(0,4), 2:(2,2),
3:(4,0), 4:(4,4) — `build_hull` links the four outer points into the
single 4-cycle (0,0) → (0,4) → (4,4) → (4,0) → (0,0) under `cw`, with
`ccw` the reverse cycle, and leaves (2,2) with both `cw_point` and
`ccw_point` equal to `None`. -/
theorem buildHull_example_five_points :
    (buildHull examplePoints 0 5 initState).map (fun st =>
      (st.cw 0, st.cw 1, st.cw 4, st.cw 3,
       st.ccw 0, st.ccw 3, st.ccw 4, st.ccw 1,
       st.cw 2, st.ccw 2)) =
    some (some 1, some 4, some 3, some 0,
      some 3, some 4, some 1, some 0,
      none, none) := by
  norm_num +decide [buildHull, buildHullF, link2, link3, merge, walkUp,
    walkDown, turn, setCw, setCcw, addOld, clearOld, ptOf, initState,
    examplePoints]

/-- Remark (no claim): on the exactly-collinear sorted triple
(0,0), (1,1), (2,2) — pairwise distinct coordinates — `build_hull` takes
the "right turn" base-case branch and links all three points into a
3-cycle, so the middle point (1,1), which is not a vertex of the convex
hull (it lies on the segment between the other two), keeps non-`None`
neighbour pointers instead of having them cleared. -/
theorem buildHull_collinear_triple_keeps_middle :
    (buildHull collinearTriple 0 3 initState).map (fun st =>
      (st.cw 1, st.ccw 1)) = some (some 2, some 0) := by
  norm_num +decide [buildHull, buildHullF, link3, turn, setCw, setCcw,
    initState, collinearTriple]

end A1

namespace A2

/-- C6: `read_triangles` reports defects in triangle records with a line
number one less than the record's true 1-based source line.  On the
file `1 / 0 0 / 1 / 0 0` the malformed triangle record `0 0` occupies
the fourth line (0-based index 3 of the line list), but the printed
report says line 3 ("triangle does not have three vertices"); defective
vertex records, by contrast, are reported with their correct 1-based
line.  (The triangle-building phase then dies of an `IndexError` on
this input — see `readTriangles_crashes_instead_of_returning_empty` for
that separate defect.) -/
theorem readTriangles_triangle_defect_line_off_by_one :
    readTriangles [[1], [0, 0], [1], [0, 0]] =
      some ([(3, Defect.triangleNotThreeVertices)], none) ∧
    ([[1], [0, 0], [1], [0, 0]] : List (List ℤ)).get? 3 = some [0, 0] := by
  constructor
  · rfl
  · rfl

/-- C7: a validation defect does not always make `read_triangles` return
the empty list: on the file `1 / 0 0 / 1 / 5 0 0` the out-of-range
vertex index 5 is detected and reported, but the function then
dereferences `allVerts[5]` while building triangles and dies of an
uncaught `IndexError` (the `none` in the result), so control never
reaches the `return []`. -/
theorem readTriangles_crashes_instead_of_returning_empty :
    readTriangles [[1], [0, 0], [1], [5, 0, 0]] =
      some ([(3, Defect.vertexIndexNotInRange)], none) := by
  rfl

end A2
namespace A3

/-- Normalising a vector whose length exceeds the `0.0001` cutoff yields
a vector of length exactly 1. -/
theorem length_normalize_eq_one {v : Vec3} (h : 1 / 10000 < length v) :
    length (normalize v) = 1 := by
  have hd : 0 < length v := lt_trans (by norm_num) h
  have hs : 0 < v.x * v.x + v.y * v.y + v.z * v.z := by
    unfold length at hd
    exact Real.sqrt_pos.mp hd
  simp only [normalize]
  rw [if_pos h]
  unfold length
  have hne : Real.sqrt (v.x * v.x + v.y * v.y + v.z * v.z) ≠ 0 := by
    unfold length at hd
    exact ne_of_gt hd
  have key : v.x / length v * (v.x / length v) + v.y / length v * (v.y / length v)
      + v.z / length v * (v.z / length v) = 1 := by
    unfold length
    field_simp
  simp only [length] at key ⊢
  rw [key, Real.sqrt_one]

/-- `mkTriangle` preserves everything except the id counter. -/
theorem mkTriangle_state (st : A3State) (v0 v1 v2 : Nat) :
    (mkTriangle st v0 v1 v2).1.coords = st.coords ∧
    (mkTriangle st v0 v1 v2).1.nextV = st.nextV ∧
    (mkTriangle st v0 v1 v2).1.sliceVerts = st.sliceVerts :=
  ⟨rfl, rfl, rfl⟩

/-- C9 counterexample core: a triangle whose vertices coincide. -/
theorem mkTriangle_degenerate_norm_not_unit :
    ¬ length (mkTriangle stPoint 0 1 2).2.norm = 1 := by
  have hnorm : (mkTriangle stPoint 0 1 2).2.norm = ⟨0, 0, 0⟩ := by
    show normalize (crossProduct (subtract _ _) (subtract _ _)) = _
    simp only [stPoint, subtract, crossProduct, normalize, length]
    norm_num [Real.sqrt_zero]
  rw [hnorm]
  simp only [length]
  norm_num [Real.sqrt_zero]

end A3

namespace A3

/-- C9 (amended): every Triangle's `norm` is the normalised cross
product of its first two edge vectors, and it is a unit vector whenever
the cross product's length clears the `0.0001` normalisation cutoff. -/
theorem mkTriangle_norm_spec (st : A3State) (v0 v1 v2 : Nat) :
    (mkTriangle st v0 v1 v2).2.norm =
      normalize (crossProduct (subtract (st.coords v1) (st.coords v0))
        (subtract (st.coords v2) (st.coords v0))) ∧
    (1 / 10000 <
        length (crossProduct (subtract (st.coords v1) (st.coords v0))
          (subtract (st.coords v2) (st.coords v0))) →
      length (mkTriangle st v0 v1 v2).2.norm = 1) :=
  ⟨rfl, fun h => length_normalize_eq_one h⟩

/-- C9 counterexample: for the degenerate triangle whose three vertices
coincide, the stored norm (the zero vector) is not a unit vector. -/
theorem mkTriangle_norm_unit_counterexample :
    ¬ ((mkTriangle stPoint 0 1 2).2.norm =
        normalize (crossProduct (subtract (stPoint.coords 1) (stPoint.coords 0))
          (subtract (stPoint.coords 2) (stPoint.coords 0))) ∧
       length (mkTriangle stPoint 0 1 2).2.norm = 1) :=
  fun hc => mkTriangle_degenerate_norm_not_unit hc.2

/-- C9 witness: a concrete nondegenerate triangle satisfying the
hypothesis of `mkTriangle_norm_spec`. -/
theorem mkTriangle_norm_spec_witness :
    1 / 10000 <
      length (crossProduct (subtract (stUnit.coords 1) (stUnit.coords 0))
        (subtract (stUnit.coords 2) (stUnit.coords 0))) ∧
    length (mkTriangle stUnit 0 1 2).2.norm = 1 := by
  have h : 1 / 10000 <
      length (crossProduct (subtract (stUnit.coords 1) (stUnit.coords 0))
        (subtract (stUnit.coords 2) (stUnit.coords 0))) := by
    simp only [stUnit, subtract, crossProduct, length]
    norm_num [Real.sqrt_one]
  exact ⟨h, (mkTriangle_norm_spec stUnit 0 1 2).2 h⟩

/-- The reconstruction walk touches the state only through
`mkTriangle`, which bumps the id counter: coordinates, `nextV` pointers
and slice vertex lists pass through unchanged. -/
theorem walkBack_frame (s0c s1c : List Nat) (dt : DTab) :
    ∀ fuel st r c acc,
      (walkBack s0c s1c dt fuel st r c acc).1.coords = st.coords ∧
      (walkBack s0c s1c dt fuel st r c acc).1.nextV = st.nextV ∧
      (walkBack s0c s1c dt fuel st r c acc).1.sliceVerts = st.sliceVerts := by
  intro fuel
  induction fuel with
  | zero => intro st r c acc; exact ⟨rfl, rfl, rfl⟩
  | succ n ih =>
    intro st r c acc
    cases r with
    | zero =>
      cases c with
      | zero => exact ⟨rfl, rfl, rfl⟩
      | succ c2 =>
        rw [walkBack]
        cases dt 0 (c2 + 1) with
        | none => exact ⟨rfl, rfl, rfl⟩
        | some d =>
          cases d with
          | PREV_ROW => exact ⟨rfl, rfl, rfl⟩
          | PREV_COL => exact ih _ _ _ _
    | succ r2 =>
      cases c with
      | zero =>
        rw [walkBack]
        cases dt (r2 + 1) 0 with
        | none => exact ⟨rfl, rfl, rfl⟩
        | some d =>
          cases d with
          | PREV_ROW => exact ih _ _ _ _
          | PREV_COL => exact ⟨rfl, rfl, rfl⟩
      | succ c2 =>
        rw [walkBack]
        cases dt (r2 + 1) (c2 + 1) with
        | none => exact ⟨rfl, rfl, rfl⟩
        | some d =>
          cases d with
          | PREV_ROW => exact ih _ _ _ _
          | PREV_COL => exact ih _ _ _ _

/-- C10: `buildTriangles` leaves its inputs unchanged — the vertex
coordinates, the `nextV` references and the slices' vertex lists are
identical in the state it returns; the only state change is the id
counter consumed by the freshly created triangles. -/
theorem buildTriangles_leaves_inputs_unchanged (st : A3State) (s0 s1 : Nat) :
    (buildTriangles st s0 s1).1.coords = st.coords ∧
    (buildTriangles st s0 s1).1.nextV = st.nextV ∧
    (buildTriangles st s0 s1).1.sliceVerts = st.sliceVerts := by
  unfold buildTriangles
  split
  · exact ⟨rfl, rfl, rfl⟩
  · exact ⟨rfl, rfl, rfl⟩
  · exact walkBack_frame _ _ _ _ _ _ _ _

end A3
namespace A3

theorem upd2_self {α : Type} (t : Nat → Nat → α) (r c : Nat) (v : α) :
    upd2 t r c v r c = v := by simp [upd2]

theorem upd2_other {α : Type} (t : Nat → Nat → α) (r c : Nat) (v : α)
    {r2 c2 : Nat} (h : ¬ (r2 = r ∧ c2 = c)) : upd2 t r c v r2 c2 = t r2 c2 := by
  simp only [upd2, if_neg h]

/-- The row-0 loop writes only the cells `(0, 1) .. (0, n)`. -/
theorem row0Fill_untouched (crd : Nat → Vec3) (s0c s1c : List Nat) :
    ∀ n td r c, ¬ (r = 0 ∧ 1 ≤ c ∧ c ≤ n) →
      (row0Fill crd s0c s1c n td).1 r c = td.1 r c ∧
      (row0Fill crd s0c s1c n td).2 r c = td.2 r c := by
  intro n
  induction n with
  | zero => intro td r c _; exact ⟨rfl, rfl⟩
  | succ m ih =>
    intro td r c h
    have h1 : ¬ (r = 0 ∧ c = m + 1) := by omega
    have h2 : ¬ (r = 0 ∧ 1 ≤ c ∧ c ≤ m) := by omega
    simp only [row0Fill]
    exact ⟨(upd2_other _ _ _ _ h1).trans (ih td r c h2).1,
           (upd2_other _ _ _ _ h1).trans (ih td r c h2).2⟩

/-- Cells written by the row-0 loop satisfy the row-0 recurrence of the
source, read off the loop's own output table. -/
theorem row0Fill_cell (crd : Nat → Vec3) (s0c s1c : List Nat) :
    ∀ n td c, c + 1 ≤ n →
      (row0Fill crd s0c s1c n td).1 0 (c + 1) =
        (row0Fill crd s0c s1c n td).1 0 c +
          triangleArea (crd (s1c.getD 0 0)) (crd (s0c.getD (c + 1) 0))
            (crd (s0c.getD c 0)) ∧
      (row0Fill crd s0c s1c n td).2 0 (c + 1) = some .PREV_COL := by
  intro n
  induction n with
  | zero => intro td c h; omega
  | succ m ih =>
    intro td c h
    rcases Nat.lt_or_ge (c + 1) (m + 1) with hlt | hge
    · have hc : c + 1 ≤ m := by omega
      have h1 : ¬ ((0 : Nat) = 0 ∧ c + 1 = m + 1) := by omega
      have h2 : ¬ ((0 : Nat) = 0 ∧ c = m + 1) := by omega
      simp only [row0Fill]
      rw [upd2_other _ _ _ _ h1, upd2_other _ _ _ _ h2,
        upd2_other _ _ _ _ h1]
      exact ih td c hc
    · have hc : c = m := by omega
      subst hc
      have h2 : ¬ ((0 : Nat) = 0 ∧ c = c + 1) := by omega
      simp only [row0Fill]
      rw [upd2_self, upd2_self, upd2_other _ _ _ _ h2]
      exact ⟨rfl, rfl⟩

/-- The column-0 loop writes only the cells `(1, 0) .. (n, 0)`. -/
theorem col0Fill_untouched (crd : Nat → Vec3) (s0c s1c : List Nat) :
    ∀ n td r c, ¬ (c = 0 ∧ 1 ≤ r ∧ r ≤ n) →
      (col0Fill crd s0c s1c n td).1 r c = td.1 r c ∧
      (col0Fill crd s0c s1c n td).2 r c = td.2 r c := by
  intro n
  induction n with
  | zero => intro td r c _; exact ⟨rfl, rfl⟩
  | succ m ih =>
    intro td r c h
    have h1 : ¬ (r = m + 1 ∧ c = 0) := by omega
    have h2 : ¬ (c = 0 ∧ 1 ≤ r ∧ r ≤ m) := by omega
    simp only [col0Fill]
    exact ⟨(upd2_other _ _ _ _ h1).trans (ih td r c h2).1,
           (upd2_other _ _ _ _ h1).trans (ih td r c h2).2⟩

/-- Cells written by the column-0 loop satisfy the column-0 recurrence
of the source. -/
theorem col0Fill_cell (crd : Nat → Vec3) (s0c s1c : List Nat) :
    ∀ n td r, r + 1 ≤ n →
      (col0Fill crd s0c s1c n td).1 (r + 1) 0 =
        (col0Fill crd s0c s1c n td).1 r 0 +
          triangleArea (crd (s1c.getD (r + 1) 0)) (crd (s1c.getD r 0))
            (crd (s0c.getD 0 0)) ∧
      (col0Fill crd s0c s1c n td).2 (r + 1) 0 = some .PREV_ROW := by
  intro n
  induction n with
  | zero => intro td r h; omega
  | succ m ih =>
    intro td r h
    rcases Nat.lt_or_ge (r + 1) (m + 1) with hlt | hge
    · have hr : r + 1 ≤ m := by omega
      have h1 : ¬ (r + 1 = m + 1 ∧ (0 : Nat) = 0) := by omega
      have h2 : ¬ (r = m + 1 ∧ (0 : Nat) = 0) := by omega
      simp only [col0Fill]
      rw [upd2_other _ _ _ _ h1, upd2_other _ _ _ _ h2,
        upd2_other _ _ _ _ h1]
      exact ih td r hr
    · have hr : r = m := by omega
      subst hr
      have h2 : ¬ (r = r + 1 ∧ (0 : Nat) = 0) := by omega
      simp only [col0Fill]
      rw [upd2_self, upd2_self, upd2_other _ _ _ _ h2]
      exact ⟨rfl, rfl⟩

end A3
namespace A3

/-- The fill loop for a fixed row `rr + 1` writes only the cells
`(rr + 1, 1) .. (rr + 1, n)`. -/
theorem genRowFill_untouched (crd : Nat → Vec3) (s0c s1c : List Nat) (r : Nat) :
    ∀ n td r2 c2, ¬ (r2 = r ∧ 1 ≤ c2 ∧ c2 ≤ n) →
      (genRowFill crd s0c s1c r n td).1 r2 c2 = td.1 r2 c2 ∧
      (genRowFill crd s0c s1c r n td).2 r2 c2 = td.2 r2 c2 := by
  intro n
  induction n with
  | zero => intro td r2 c2 _; exact ⟨rfl, rfl⟩
  | succ m ih =>
    intro td r2 c2 h
    have h1 : ¬ (r2 = r ∧ c2 = m + 1) := by omega
    have h2 : ¬ (r2 = r ∧ 1 ≤ c2 ∧ c2 ≤ m) := by omega
    simp only [genRowFill, genCell]
    exact ⟨(upd2_other _ _ _ _ h1).trans (ih td r2 c2 h2).1,
           (upd2_other _ _ _ _ h1).trans (ih td r2 c2 h2).2⟩

/-- Cells written by the fixed-row fill loop satisfy the general-cell
recurrence, read off the loop's own output table: the stored value is
the minimum of the previous-row and previous-column candidates, and the
stored direction is `PREV_ROW` exactly when the previous-row candidate
is strictly smaller. -/
theorem genRowFill_cell (crd : Nat → Vec3) (s0c s1c : List Nat) (rr : Nat) :
    ∀ n td c, c + 1 ≤ n →
      (genRowFill crd s0c s1c (rr + 1) n td).1 (rr + 1) (c + 1) =
        min ((genRowFill crd s0c s1c (rr + 1) n td).1 rr (c + 1) +
              triangleArea (crd (s1c.getD (rr + 1) 0)) (crd (s0c.getD (c + 1) 0))
                (crd (s1c.getD rr 0)))
            ((genRowFill crd s0c s1c (rr + 1) n td).1 (rr + 1) c +
              triangleArea (crd (s1c.getD (rr + 1) 0)) (crd (s0c.getD (c + 1) 0))
                (crd (s0c.getD c 0))) ∧
      (genRowFill crd s0c s1c (rr + 1) n td).2 (rr + 1) (c + 1) =
        some (if (genRowFill crd s0c s1c (rr + 1) n td).1 rr (c + 1) +
              triangleArea (crd (s1c.getD (rr + 1) 0)) (crd (s0c.getD (c + 1) 0))
                (crd (s1c.getD rr 0)) <
            (genRowFill crd s0c s1c (rr + 1) n td).1 (rr + 1) c +
              triangleArea (crd (s1c.getD (rr + 1) 0)) (crd (s0c.getD (c + 1) 0))
                (crd (s0c.getD c 0))
          then Dir.PREV_ROW else Dir.PREV_COL) := by
  intro n
  induction n with
  | zero => intro td c h; omega
  | succ m ih =>
    intro td c h
    rcases Nat.lt_or_ge (c + 1) (m + 1) with hlt | hge
    · have hc : c + 1 ≤ m := by omega
      have h1 : ¬ (rr + 1 = rr + 1 ∧ c + 1 = m + 1) := by omega
      have h2 : ¬ (rr = rr + 1 ∧ c + 1 = m + 1) := by omega
      have h3 : ¬ (rr + 1 = rr + 1 ∧ c = m + 1) := by omega
      simp only [genRowFill, genCell]
      simp only [upd2_other _ _ _ _ h1, upd2_other _ _ _ _ h2,
        upd2_other _ _ _ _ h3]
      exact ih td c hc
    · have hc : c = m := by omega
      subst hc
      have h2 : ¬ (rr = rr + 1 ∧ c + 1 = c + 1) := by omega
      have h3 : ¬ (rr + 1 = rr + 1 ∧ c = c + 1) := by omega
      simp only [genRowFill, genCell, Nat.add_sub_cancel]
      simp only [upd2_self, upd2_other _ _ _ _ h2, upd2_other _ _ _ _ h3]
      exact ⟨trivial, trivial⟩

/-- The general double loop writes only cells with row in `1 .. m` and
column in `1 .. cmax`. -/
theorem genFill_untouched (crd : Nat → Vec3) (s0c s1c : List Nat) (cmax : Nat) :
    ∀ m td r c, ¬ (1 ≤ r ∧ r ≤ m ∧ 1 ≤ c ∧ c ≤ cmax) →
      (genFill crd s0c s1c cmax m td).1 r c = td.1 r c ∧
      (genFill crd s0c s1c cmax m td).2 r c = td.2 r c := by
  intro m
  induction m with
  | zero => intro td r c _; exact ⟨rfl, rfl⟩
  | succ k ih =>
    intro td r c h
    have h1 : ¬ (r = k + 1 ∧ 1 ≤ c ∧ c ≤ cmax) := by omega
    have h2 : ¬ (1 ≤ r ∧ r ≤ k ∧ 1 ≤ c ∧ c ≤ cmax) := by omega
    simp only [genFill]
    exact ⟨((genRowFill_untouched crd s0c s1c (k + 1) cmax _ r c h1).1).trans
        (ih td r c h2).1,
      ((genRowFill_untouched crd s0c s1c (k + 1) cmax _ r c h1).2).trans
        (ih td r c h2).2⟩

end A3
namespace A3

/-- The general-cell recurrence, lifted to the whole double loop. -/
theorem genFill_cell (crd : Nat → Vec3) (s0c s1c : List Nat) (cmax : Nat) :
    ∀ m td rr c, rr + 1 ≤ m → c + 1 ≤ cmax →
      (genFill crd s0c s1c cmax m td).1 (rr + 1) (c + 1) =
        min ((genFill crd s0c s1c cmax m td).1 rr (c + 1) +
              triangleArea (crd (s1c.getD (rr + 1) 0)) (crd (s0c.getD (c + 1) 0))
                (crd (s1c.getD rr 0)))
            ((genFill crd s0c s1c cmax m td).1 (rr + 1) c +
              triangleArea (crd (s1c.getD (rr + 1) 0)) (crd (s0c.getD (c + 1) 0))
                (crd (s0c.getD c 0))) ∧
      (genFill crd s0c s1c cmax m td).2 (rr + 1) (c + 1) =
        some (if (genFill crd s0c s1c cmax m td).1 rr (c + 1) +
              triangleArea (crd (s1c.getD (rr + 1) 0)) (crd (s0c.getD (c + 1) 0))
                (crd (s1c.getD rr 0)) <
            (genFill crd s0c s1c cmax m td).1 (rr + 1) c +
              triangleArea (crd (s1c.getD (rr + 1) 0)) (crd (s0c.getD (c + 1) 0))
                (crd (s0c.getD c 0))
          then Dir.PREV_ROW else Dir.PREV_COL) := by
  intro m
  induction m with
  | zero => intro td rr c h _; omega
  | succ k ih =>
    intro td rr c hr hc
    rcases Nat.lt_or_ge (rr + 1) (k + 1) with hlt | hge
    · have h1 : rr + 1 ≤ k := by omega
      have e1 := genRowFill_untouched crd s0c s1c (k + 1) cmax
        (genFill crd s0c s1c cmax k td) (rr + 1) (c + 1) (by omega)
      have e2 := genRowFill_untouched crd s0c s1c (k + 1) cmax
        (genFill crd s0c s1c cmax k td) rr (c + 1) (by omega)
      have e3 := genRowFill_untouched crd s0c s1c (k + 1) cmax
        (genFill crd s0c s1c cmax k td) (rr + 1) c (by omega)
      simp only [genFill]
      simp only [e1.1, e1.2, e2.1, e3.1]
      exact ih td rr c h1 hc
    · have hrr : rr = k := by omega
      subst hrr
      simp only [genFill]
      exact genRowFill_cell crd s0c s1c rr cmax
        (genFill crd s0c s1c cmax rr td) c hc

/-- The starting cell of the filled tables holds `minArea[0][0] = 0`. -/
theorem fillTables_origin (crd : Nat → Vec3) (s0c s1c : List Nat) :
    (fillTables crd s0c s1c).1 0 0 = 0 := by
  unfold fillTables
  have e1 := genFill_untouched crd s0c s1c (s0c.length - 1) (s1c.length - 1)
    (col0Fill crd s0c s1c (s1c.length - 1)
      (row0Fill crd s0c s1c (s0c.length - 1)
        (upd2 (fun _ _ => -1) 0 0 0, fun _ _ => none))) 0 0 (by omega)
  have e2 := col0Fill_untouched crd s0c s1c (s1c.length - 1)
    (row0Fill crd s0c s1c (s0c.length - 1)
      (upd2 (fun _ _ => -1) 0 0 0, fun _ _ => none)) 0 0 (by omega)
  have e3 := row0Fill_untouched crd s0c s1c (s0c.length - 1)
    (upd2 (fun _ _ => -1) 0 0 0, fun _ _ => none) 0 0 (by omega)
  rw [e1.1, e2.1, e3.1]
  exact upd2_self (fun _ _ => (-1 : ℝ)) 0 0 0

/-- The filled tables satisfy the row-0 recurrence. -/
theorem fillTables_row0 (crd : Nat → Vec3) (s0c s1c : List Nat) :
    ∀ c, c + 1 ≤ s0c.length - 1 →
      (fillTables crd s0c s1c).1 0 (c + 1) =
        (fillTables crd s0c s1c).1 0 c +
          triangleArea (crd (s1c.getD 0 0)) (crd (s0c.getD (c + 1) 0))
            (crd (s0c.getD c 0)) ∧
      (fillTables crd s0c s1c).2 0 (c + 1) = some .PREV_COL := by
  intro c hc
  unfold fillTables
  have e1 := genFill_untouched crd s0c s1c (s0c.length - 1) (s1c.length - 1)
    (col0Fill crd s0c s1c (s1c.length - 1)
      (row0Fill crd s0c s1c (s0c.length - 1)
        (upd2 (fun _ _ => -1) 0 0 0, fun _ _ => none))) 0 (c + 1) (by omega)
  have e2 := genFill_untouched crd s0c s1c (s0c.length - 1) (s1c.length - 1)
    (col0Fill crd s0c s1c (s1c.length - 1)
      (row0Fill crd s0c s1c (s0c.length - 1)
        (upd2 (fun _ _ => -1) 0 0 0, fun _ _ => none))) 0 c (by omega)
  have f1 := col0Fill_untouched crd s0c s1c (s1c.length - 1)
    (row0Fill crd s0c s1c (s0c.length - 1)
      (upd2 (fun _ _ => -1) 0 0 0, fun _ _ => none)) 0 (c + 1) (by omega)
  have f2 := col0Fill_untouched crd s0c s1c (s1c.length - 1)
    (row0Fill crd s0c s1c (s0c.length - 1)
      (upd2 (fun _ _ => -1) 0 0 0, fun _ _ => none)) 0 c (by omega)
  rw [e1.1, e1.2, e2.1, f1.1, f1.2, f2.1]
  exact row0Fill_cell crd s0c s1c (s0c.length - 1) _ c hc

/-- The filled tables satisfy the column-0 recurrence. -/
theorem fillTables_col0 (crd : Nat → Vec3) (s0c s1c : List Nat) :
    ∀ r, r + 1 ≤ s1c.length - 1 →
      (fillTables crd s0c s1c).1 (r + 1) 0 =
        (fillTables crd s0c s1c).1 r 0 +
          triangleArea (crd (s1c.getD (r + 1) 0)) (crd (s1c.getD r 0))
            (crd (s0c.getD 0 0)) ∧
      (fillTables crd s0c s1c).2 (r + 1) 0 = some .PREV_ROW := by
  intro r hr
  unfold fillTables
  have e1 := genFill_untouched crd s0c s1c (s0c.length - 1) (s1c.length - 1)
    (col0Fill crd s0c s1c (s1c.length - 1)
      (row0Fill crd s0c s1c (s0c.length - 1)
        (upd2 (fun _ _ => -1) 0 0 0, fun _ _ => none))) (r + 1) 0 (by omega)
  have e2 := genFill_untouched crd s0c s1c (s0c.length - 1) (s1c.length - 1)
    (col0Fill crd s0c s1c (s1c.length - 1)
      (row0Fill crd s0c s1c (s0c.length - 1)
        (upd2 (fun _ _ => -1) 0 0 0, fun _ _ => none))) r 0 (by omega)
  rw [e1.1, e1.2, e2.1]
  exact col0Fill_cell crd s0c s1c (s1c.length - 1) _ r hr

end A3
namespace A3

/-- C2: in `buildTriangles`, the filled DP tables satisfy the stated
recurrence over the cyclically rotated vertex lists: `minArea[0][0] = 0`;
along row 0 each cell adds `area(slice1[0], slice0[c], slice0[c-1])` to
its left neighbour and records "from previous column"; along column 0
each cell adds `area(slice1[r], slice1[r-1], slice0[0])` to the cell
above and records "from previous row"; and every general cell holds the
minimum of the previous-row candidate
`minArea[r-1][c] + area(slice1[r], slice0[c], slice1[r-1])` and the
previous-column candidate
`minArea[r][c-1] + area(slice1[r], slice0[c], slice0[c-1])`, recording
`PREV_ROW` exactly when the previous-row candidate is strictly smaller —
so an exact tie records `PREV_COL`. -/
theorem buildTriangles_dp_recurrence (st : A3State) (s0 s1 : Nat) :
    (fillTables st.coords (cyclic0 st s0 s1) (cyclic1 st s0 s1)).1 0 0 = 0 ∧
    (∀ c, c + 1 ≤ (cyclic0 st s0 s1).length - 1 →
      (fillTables st.coords (cyclic0 st s0 s1) (cyclic1 st s0 s1)).1 0 (c + 1) =
        (fillTables st.coords (cyclic0 st s0 s1) (cyclic1 st s0 s1)).1 0 c +
          triangleArea (st.coords ((cyclic1 st s0 s1).getD 0 0))
            (st.coords ((cyclic0 st s0 s1).getD (c + 1) 0))
            (st.coords ((cyclic0 st s0 s1).getD c 0)) ∧
      (fillTables st.coords (cyclic0 st s0 s1) (cyclic1 st s0 s1)).2 0 (c + 1) =
        some .PREV_COL) ∧
    (∀ r, r + 1 ≤ (cyclic1 st s0 s1).length - 1 →
      (fillTables st.coords (cyclic0 st s0 s1) (cyclic1 st s0 s1)).1 (r + 1) 0 =
        (fillTables st.coords (cyclic0 st s0 s1) (cyclic1 st s0 s1)).1 r 0 +
          triangleArea (st.coords ((cyclic1 st s0 s1).getD (r + 1) 0))
            (st.coords ((cyclic1 st s0 s1).getD r 0))
            (st.coords ((cyclic0 st s0 s1).getD 0 0)) ∧
      (fillTables st.coords (cyclic0 st s0 s1) (cyclic1 st s0 s1)).2 (r + 1) 0 =
        some .PREV_ROW) ∧
    (∀ r c, r + 1 ≤ (cyclic1 st s0 s1).length - 1 →
        c + 1 ≤ (cyclic0 st s0 s1).length - 1 →
      (fillTables st.coords (cyclic0 st s0 s1) (cyclic1 st s0 s1)).1 (r + 1) (c + 1) =
        min ((fillTables st.coords (cyclic0 st s0 s1) (cyclic1 st s0 s1)).1 r (c + 1) +
              triangleArea (st.coords ((cyclic1 st s0 s1).getD (r + 1) 0))
                (st.coords ((cyclic0 st s0 s1).getD (c + 1) 0))
                (st.coords ((cyclic1 st s0 s1).getD r 0)))
            ((fillTables st.coords (cyclic0 st s0 s1) (cyclic1 st s0 s1)).1 (r + 1) c +
              triangleArea (st.coords ((cyclic1 st s0 s1).getD (r + 1) 0))
                (st.coords ((cyclic0 st s0 s1).getD (c + 1) 0))
                (st.coords ((cyclic0 st s0 s1).getD c 0))) ∧
      (fillTables st.coords (cyclic0 st s0 s1) (cyclic1 st s0 s1)).2 (r + 1) (c + 1) =
        some (if (fillTables st.coords (cyclic0 st s0 s1) (cyclic1 st s0 s1)).1 r (c + 1) +
              triangleArea (st.coords ((cyclic1 st s0 s1).getD (r + 1) 0))
                (st.coords ((cyclic0 st s0 s1).getD (c + 1) 0))
                (st.coords ((cyclic1 st s0 s1).getD r 0)) <
            (fillTables st.coords (cyclic0 st s0 s1) (cyclic1 st s0 s1)).1 (r + 1) c +
              triangleArea (st.coords ((cyclic1 st s0 s1).getD (r + 1) 0))
                (st.coords ((cyclic0 st s0 s1).getD (c + 1) 0))
                (st.coords ((cyclic0 st s0 s1).getD c 0))
          then Dir.PREV_ROW else Dir.PREV_COL)) := by
  refine ⟨fillTables_origin _ _ _, fillTables_row0 _ _ _, fillTables_col0 _ _ _,
    fun r c hr hc => ?_⟩
  unfold fillTables
  exact genFill_cell st.coords (cyclic0 st s0 s1) (cyclic1 st s0 s1)
    ((cyclic0 st s0 s1).length - 1) ((cyclic1 st s0 s1).length - 1) _ r c hr hc

/-- C2 witness: on the concrete one-vertex slices of `stPoint` both
cyclic lists have length 2, the bounds of the general-cell clause hold
at the cell (1, 1), and the recurrence instance there follows. -/
theorem buildTriangles_dp_recurrence_witness :
    0 + 1 ≤ (cyclic1 stPoint 0 1).length - 1 ∧
    0 + 1 ≤ (cyclic0 stPoint 0 1).length - 1 ∧
    (fillTables stPoint.coords (cyclic0 stPoint 0 1) (cyclic1 stPoint 0 1)).2
        (0 + 1) (0 + 1) =
      some (if (fillTables stPoint.coords (cyclic0 stPoint 0 1) (cyclic1 stPoint 0 1)).1 0 (0 + 1) +
            triangleArea (stPoint.coords ((cyclic1 stPoint 0 1).getD (0 + 1) 0))
              (stPoint.coords ((cyclic0 stPoint 0 1).getD (0 + 1) 0))
              (stPoint.coords ((cyclic1 stPoint 0 1).getD 0 0)) <
          (fillTables stPoint.coords (cyclic0 stPoint 0 1) (cyclic1 stPoint 0 1)).1 (0 + 1) 0 +
            triangleArea (stPoint.coords ((cyclic1 stPoint 0 1).getD (0 + 1) 0))
              (stPoint.coords ((cyclic0 stPoint 0 1).getD (0 + 1) 0))
              (stPoint.coords ((cyclic0 stPoint 0 1).getD 0 0))
        then Dir.PREV_ROW else Dir.PREV_COL) := by
  have hr : 0 + 1 ≤ (cyclic1 stPoint 0 1).length - 1 := by
    rw [show (cyclic1 stPoint 0 1).length = 2 from rfl]
  have hc : 0 + 1 ≤ (cyclic0 stPoint 0 1).length - 1 := by
    rw [show (cyclic0 stPoint 0 1).length = 2 from rfl]
  exact ⟨hr, hc,
    ((buildTriangles_dp_recurrence stPoint 0 1).2.2.2 0 0 hr hc).2⟩

end A3
namespace A3

/-- Folding preserves an invariant that every step respects. -/
theorem foldl_preserve {α β : Type} (P : α → Prop) (f : α → β → α) :
    ∀ (l : List β) (init : α), P init →
      (∀ acc b, b ∈ l → P acc → P (f acc b)) → P (l.foldl f init) := by
  intro l
  induction l with
  | nil => intro init h _; exact h
  | cons a t ih =>
    intro init h hstep
    exact ih (f init a) (hstep init a (List.mem_cons_self a t) h)
      (fun acc b hb hacc => hstep acc b (List.mem_cons_of_mem a hb) hacc)

/-- The pair found by the brute-force search is drawn from the two
vertex lists (for nonempty lists). -/
theorem closestPair_mem (st : A3State) (v0s v1s : List Nat)
    (h0 : v0s ≠ []) (h1 : v1s ≠ []) :
    (closestPair st v0s v1s).1 ∈ v0s ∧ (closestPair st v0s v1s).2 ∈ v1s := by
  unfold closestPair
  have hinit : ((none : Option ℝ), v0s.headD 0, v1s.headD 0).2.1 ∈ v0s ∧
      ((none : Option ℝ), v0s.headD 0, v1s.headD 0).2.2 ∈ v1s := by
    constructor
    · cases v0s with
      | nil => exact absurd rfl h0
      | cons a l => exact List.mem_cons_self a l
    · cases v1s with
      | nil => exact absurd rfl h1
      | cons a l => exact List.mem_cons_self a l
  refine foldl_preserve (fun acc : Option ℝ × Nat × Nat => acc.2.1 ∈ v0s ∧ acc.2.2 ∈ v1s) _ v0s _ hinit ?_
  intro acc a ha hacc
  refine foldl_preserve (fun acc2 : Option ℝ × Nat × Nat => acc2.2.1 ∈ v0s ∧ acc2.2.2 ∈ v1s) _ v1s _ hacc ?_
  intro acc2 b hb hacc2
  unfold closestStep
  cases acc2.1 with
  | none => exact ⟨ha, hb⟩
  | some m =>
    dsimp only
    by_cases hlt : length (subtract (st.coords a) (st.coords b)) < m
    · rw [if_pos hlt]
      exact ⟨ha, hb⟩
    · rw [if_neg hlt]
      exact hacc2

/-- Rotating a list to a member and repeating the start vertex adds one
to the length. -/
theorem cyclic_length (verts : List Nat) (v : Nat) (h : v ∈ verts) :
    (cyclic verts v).length = verts.length + 1 := by
  unfold cyclic
  have hi : verts.indexOf v < verts.length := List.indexOf_lt_length.mpr h
  rw [List.length_append, List.length_drop, List.length_take]
  omega

/-- The general-cell recurrence holds in the completely filled tables. -/
theorem fillTables_gen (crd : Nat → Vec3) (s0c s1c : List Nat) :
    ∀ r c, r + 1 ≤ s1c.length - 1 → c + 1 ≤ s0c.length - 1 →
      (fillTables crd s0c s1c).1 (r + 1) (c + 1) =
        min ((fillTables crd s0c s1c).1 r (c + 1) +
              triangleArea (crd (s1c.getD (r + 1) 0)) (crd (s0c.getD (c + 1) 0))
                (crd (s1c.getD r 0)))
            ((fillTables crd s0c s1c).1 (r + 1) c +
              triangleArea (crd (s1c.getD (r + 1) 0)) (crd (s0c.getD (c + 1) 0))
                (crd (s0c.getD c 0))) ∧
      (fillTables crd s0c s1c).2 (r + 1) (c + 1) =
        some (if (fillTables crd s0c s1c).1 r (c + 1) +
              triangleArea (crd (s1c.getD (r + 1) 0)) (crd (s0c.getD (c + 1) 0))
                (crd (s1c.getD r 0)) <
            (fillTables crd s0c s1c).1 (r + 1) c +
              triangleArea (crd (s1c.getD (r + 1) 0)) (crd (s0c.getD (c + 1) 0))
                (crd (s0c.getD c 0))
          then Dir.PREV_ROW else Dir.PREV_COL) := by
  intro r c hr hc
  unfold fillTables
  exact genFill_cell crd s0c s1c (s0c.length - 1) (s1c.length - 1) _ r c hr hc

/-- Every cell of the filled `minDir` table other than the origin, within
the table's working rectangle, holds a direction; cells of row 0 hold
`PREV_COL` and cells of column 0 hold `PREV_ROW`. -/
theorem fillTables_dir_total (crd : Nat → Vec3) (s0c s1c : List Nat) :
    ∀ r c, r ≤ s1c.length - 1 → c ≤ s0c.length - 1 → ¬ (r = 0 ∧ c = 0) →
      (fillTables crd s0c s1c).2 r c ≠ none := by
  intro r c hr hc hne
  cases r with
  | zero =>
    cases c with
    | zero => omega
    | succ c2 =>
      rw [(fillTables_row0 crd s0c s1c c2 (by omega)).2]
      exact Option.some_ne_none _
  | succ r2 =>
    cases c with
    | zero =>
      rw [(fillTables_col0 crd s0c s1c r2 (by omega)).2]
      exact Option.some_ne_none _
    | succ c2 =>
      rw [(fillTables_gen crd s0c s1c r2 c2 (by omega) (by omega)).2]
      exact Option.some_ne_none _

end A3
namespace A3

/-- With the filled `minDir` table, the reconstruction walk from any
in-range cell reaches `(0, 0)`, emitting exactly `r + c` triangles on
top of the accumulator. -/
theorem walkBack_count (crd : Nat → Vec3) (s0c s1c : List Nat) :
    ∀ fuel r c, r + c < fuel → r ≤ s1c.length - 1 → c ≤ s0c.length - 1 →
      ∀ st acc, ∃ st2 ts,
        walkBack s0c s1c (fillTables crd s0c s1c).2 fuel st r c acc =
          (st2, some ts) ∧
        ts.length = acc.length + (r + c) := by
  intro fuel
  induction fuel with
  | zero => intro r c h _ _ st acc; omega
  | succ n ih =>
    intro r c hf hr hc st acc
    cases r with
    | zero =>
      cases c with
      | zero => exact ⟨st, acc, rfl, by simp⟩
      | succ c2 =>
        have hd := (fillTables_row0 crd s0c s1c c2 (by omega)).2
        rw [walkBack, hd]
        dsimp only
        obtain ⟨st2, ts, heq, hlen⟩ := ih 0 c2 (by omega) (by omega) (by omega)
          (mkTriangle st (s1c.getD 0 0) (s0c.getD (c2 + 1) 0) (s0c.getD c2 0)).1
          (acc ++ [(mkTriangle st (s1c.getD 0 0) (s0c.getD (c2 + 1) 0)
            (s0c.getD c2 0)).2])
        refine ⟨st2, ts, heq, ?_⟩
        simp only [List.length_append, List.length_cons, List.length_nil] at hlen
        omega
    | succ r2 =>
      cases c with
      | zero =>
        have hd := (fillTables_col0 crd s0c s1c r2 (by omega)).2
        rw [walkBack, hd]
        dsimp only
        obtain ⟨st2, ts, heq, hlen⟩ := ih r2 0 (by omega) (by omega) (by omega)
          (mkTriangle st (s1c.getD (r2 + 1) 0) (s0c.getD 0 0) (s1c.getD r2 0)).1
          (acc ++ [(mkTriangle st (s1c.getD (r2 + 1) 0) (s0c.getD 0 0)
            (s1c.getD r2 0)).2])
        refine ⟨st2, ts, heq, ?_⟩
        simp only [List.length_append, List.length_cons, List.length_nil] at hlen
        omega
      | succ c2 =>
        have hd := (fillTables_gen crd s0c s1c r2 c2 (by omega) (by omega)).2
        by_cases hcond : (fillTables crd s0c s1c).1 r2 (c2 + 1) +
            triangleArea (crd (s1c.getD (r2 + 1) 0)) (crd (s0c.getD (c2 + 1) 0))
              (crd (s1c.getD r2 0)) <
            (fillTables crd s0c s1c).1 (r2 + 1) c2 +
            triangleArea (crd (s1c.getD (r2 + 1) 0)) (crd (s0c.getD (c2 + 1) 0))
              (crd (s0c.getD c2 0))
        · rw [if_pos hcond] at hd
          rw [walkBack, hd]
          dsimp only
          obtain ⟨st2, ts, heq, hlen⟩ := ih r2 (c2 + 1) (by omega) (by omega)
            (by omega)
            (mkTriangle st (s1c.getD (r2 + 1) 0) (s0c.getD (c2 + 1) 0)
              (s1c.getD r2 0)).1
            (acc ++ [(mkTriangle st (s1c.getD (r2 + 1) 0) (s0c.getD (c2 + 1) 0)
              (s1c.getD r2 0)).2])
          refine ⟨st2, ts, heq, ?_⟩
          simp only [List.length_append, List.length_cons, List.length_nil] at hlen
          omega
        · rw [if_neg hcond] at hd
          rw [walkBack, hd]
          dsimp only
          obtain ⟨st2, ts, heq, hlen⟩ := ih (r2 + 1) c2 (by omega) (by omega)
            (by omega)
            (mkTriangle st (s1c.getD (r2 + 1) 0) (s0c.getD (c2 + 1) 0)
              (s0c.getD c2 0)).1
            (acc ++ [(mkTriangle st (s1c.getD (r2 + 1) 0) (s0c.getD (c2 + 1) 0)
              (s0c.getD c2 0)).2])
          refine ⟨st2, ts, heq, ?_⟩
          simp only [List.length_append, List.length_cons, List.length_nil] at hlen
          omega

end A3
namespace A3

/-- C5: for nonempty input slices, `buildTriangles` returns (normally)
a list of exactly `size(slice0) + size(slice1)` triangles, the
pre-rotation vertex counts of the two slices. -/
theorem buildTriangles_triangle_count (st : A3State) (s0 s1 : Nat)
    (h0 : st.sliceVerts s0 ≠ []) (h1 : st.sliceVerts s1 ≠ []) :
    ∃ st2 ts, buildTriangles st s0 s1 = (st2, some ts) ∧
      ts.length = (st.sliceVerts s0).length + (st.sliceVerts s1).length := by
  have hmem := closestPair_mem st (st.sliceVerts s0) (st.sliceVerts s1) h0 h1
  have hlen0 : (cyclic0 st s0 s1).length = (st.sliceVerts s0).length + 1 :=
    cyclic_length _ _ hmem.1
  have hlen1 : (cyclic1 st s0 s1).length = (st.sliceVerts s1).length + 1 :=
    cyclic_length _ _ hmem.2
  obtain ⟨st2, ts, heq, hlen⟩ := walkBack_count st.coords
    (cyclic0 st s0 s1) (cyclic1 st s0 s1)
    (((cyclic1 st s0 s1).length - 1) + ((cyclic0 st s0 s1).length - 1) + 1)
    ((cyclic1 st s0 s1).length - 1) ((cyclic0 st s0 s1).length - 1)
    (by omega) (le_refl _) (le_refl _) st []
  refine ⟨st2, ts, ?_, ?_⟩
  · unfold buildTriangles
    split
    · exact absurd ‹st.sliceVerts s0 = []› h0
    · exact absurd ‹st.sliceVerts s1 = []› h1
    · exact heq
  · simp only [List.length_nil] at hlen
    omega

/-- C5 witness: the two one-vertex slices of `stPoint` are nonempty, and
the run yields exactly `1 + 1` triangles. -/
theorem buildTriangles_triangle_count_witness :
    stPoint.sliceVerts 0 ≠ [] ∧ stPoint.sliceVerts 1 ≠ [] ∧
    ∃ st2 ts, buildTriangles stPoint 0 1 = (st2, some ts) ∧
      ts.length = (stPoint.sliceVerts 0).length + (stPoint.sliceVerts 1).length := by
  have h0 : stPoint.sliceVerts 0 ≠ [] := by
    rw [show stPoint.sliceVerts 0 = [10] from rfl]
    exact List.cons_ne_nil _ _
  have h1 : stPoint.sliceVerts 1 ≠ [] := by
    rw [show stPoint.sliceVerts 1 = [20] from rfl]
    exact List.cons_ne_nil _ _
  exact ⟨h0, h1, buildTriangles_triangle_count stPoint 0 1 h0 h1⟩

end A3
namespace A2

theorem setNext_get (st : StripState) (i : Nat) (v : Option Nat) (j : Nat) :
    (setNext st i v).next j = if j = i then v else st.next j := rfl

theorem setPrev_get (st : StripState) (i : Nat) (v : Option Nat) (j : Nat) :
    (setPrev st i v).prev j = if j = i then v else st.prev j := rfl

/-- The scan of `min(pool, key=count)` returns a member of the pool
whose count is a lower bound for the whole pool. -/
theorem minFold_spec (adj : Nat → List Nat) (st : StripState) :
    ∀ (l : List Nat) (b : Nat),
      minFold adj st l b ∈ b :: l ∧
      ∀ t ∈ b :: l, countAdjNonStrip adj st (minFold adj st l b) ≤
        countAdjNonStrip adj st t := by
  intro l
  induction l with
  | nil =>
    intro b
    refine ⟨List.mem_cons_self _ _, ?_⟩
    intro t ht
    rcases List.mem_cons.mp ht with rfl | h
    · exact le_refl _
    · exact absurd h (List.not_mem_nil _)
  | cons a rest ih =>
    intro b
    simp only [minFold]
    by_cases hlt : countAdjNonStrip adj st a < countAdjNonStrip adj st b
    · rw [if_pos hlt]
      obtain ⟨hmem, hle⟩ := ih a
      refine ⟨?_, ?_⟩
      · rcases List.mem_cons.mp hmem with he | h
        · rw [he]
          exact List.mem_cons_of_mem _ (List.mem_cons_self _ _)
        · exact List.mem_cons_of_mem _ (List.mem_cons_of_mem _ h)
      · intro t ht
        rcases List.mem_cons.mp ht with rfl | h
        · exact le_trans (hle a (List.mem_cons_self _ _)) (le_of_lt hlt)
        · exact hle t h
    · rw [if_neg hlt]
      obtain ⟨hmem, hle⟩ := ih b
      refine ⟨?_, ?_⟩
      · rcases List.mem_cons.mp hmem with he | h
        · rw [he]
          exact List.mem_cons_self _ _
        · exact List.mem_cons_of_mem _ (List.mem_cons_of_mem _ h)
      · intro t ht
        rcases List.mem_cons.mp ht with rfl | h
        · exact hle t (List.mem_cons_self _ _)
        · rcases List.mem_cons.mp h with rfl | h2
          · exact le_trans (hle b (List.mem_cons_self _ _)) (not_lt.mp hlt)
          · exact hle t (List.mem_cons_of_mem _ h2)

/-- Splitting an iterated `next` walk. -/
theorem nextIter_add (st : StripState) :
    ∀ j k t, nextIter st (j + k) t = (nextIter st j t).bind (nextIter st k) := by
  intro j
  induction j with
  | zero => intro k t; rw [Nat.zero_add]; rfl
  | succ m ih =>
    intro k t
    have : m + 1 + k = (m + k) + 1 := by omega
    rw [this]
    simp only [nextIter]
    cases st.next t with
    | none => rfl
    | some u => exact ih k u

/-- Peeling the last step off an iterated `next` walk. -/
theorem nextIter_last (st : StripState) (k x y : Nat)
    (h : nextIter st (k + 1) x = some y) :
    ∃ a, nextIter st k x = some a ∧ st.next a = some y := by
  rw [nextIter_add st k 1 x] at h
  cases hx : nextIter st k x with
  | none => rw [hx] at h; exact absurd h (by simp)
  | some a =>
    rw [hx] at h
    simp only [Option.some_bind] at h
    refine ⟨a, rfl, ?_⟩
    simp only [nextIter] at h
    cases ha : st.next a with
    | none => rw [ha] at h; exact absurd h (by simp)
    | some b => rw [ha] at h; simp only [nextIter] at h; rw [h]

/-- A node with no `prev` pointer and a consistent state is reached by
no positive walk. -/
theorem no_reach_unlinked (st : StripState)
    (hcons : ∀ a b, st.next a = some b ↔ st.prev b = some a)
    (c : Nat) (hc : st.prev c = none) :
    ∀ k x, 0 < k → nextIter st k x ≠ some c := by
  intro k x hk h
  obtain ⟨j, hj⟩ : ∃ j, k = j + 1 := ⟨k - 1, by omega⟩
  subst hj
  obtain ⟨a, _, ha2⟩ := nextIter_last st j x c h
  rw [hcons a c] at ha2
  rw [hc] at ha2
  exact Option.noConfusion ha2

end A2
namespace A2

/-- Adding a link out of a node with no outgoing link preserves all
iterated walks of the old state. -/
theorem nextIter_update_fwd (st : StripState) (cur c : Nat)
    (hcur : st.next cur = none) :
    ∀ k t u, nextIter st k t = some u →
      nextIter (setPrev (setNext st cur (some c)) c (some cur)) k t = some u := by
  intro k
  induction k with
  | zero => intro t u h; exact h
  | succ m ih =>
    intro t u h
    simp only [nextIter] at h ⊢
    cases ht : st.next t with
    | none => rw [ht] at h; exact absurd h (by simp)
    | some v =>
      rw [ht] at h
      have htc : t ≠ cur := by
        intro he
        rw [he, hcur] at ht
        exact Option.noConfusion ht
      have hs : (setPrev (setNext st cur (some c)) c (some cur)).next t = some v := by
        show (setNext st cur (some c)).next t = some v
        rw [setNext_get, if_neg htc, ht]
      rw [hs]
      exact ih v u h

/-- A walk in the once-extended state is an old walk, or runs through
the new link and stops at its target. -/
theorem nextIter_update_bwd (st : StripState) (cur c : Nat)
    (hc : st.next c = none) (hne : c ≠ cur) :
    ∀ k t u,
      nextIter (setPrev (setNext st cur (some c)) c (some cur)) k t = some u →
      nextIter st k t = some u ∨
        (u = c ∧ ∃ j, j < k ∧ nextIter st j t = some cur) := by
  intro k
  induction k with
  | zero => intro t u h; exact Or.inl h
  | succ m ih =>
    intro t u h
    simp only [nextIter] at h
    by_cases htc : t = cur
    · have hs : (setPrev (setNext st cur (some c)) c (some cur)).next t = some c := by
        show (setNext st cur (some c)).next t = some c
        rw [setNext_get, if_pos htc]
      rw [hs] at h
      have hcn : (setPrev (setNext st cur (some c)) c (some cur)).next c = none := by
        show (setNext st cur (some c)).next c = none
        rw [setNext_get, if_neg hne, hc]
      cases m with
      | zero =>
        have hu : u = c := by
          simp only [nextIter] at h
          exact Option.some.inj h.symm
        refine Or.inr ⟨hu, 0, by omega, ?_⟩
        simp only [nextIter, htc]
      | succ m2 =>
        simp only [nextIter, hcn] at h
        exact absurd h (by simp)
    · have hs : (setPrev (setNext st cur (some c)) c (some cur)).next t = st.next t := by
        show (setNext st cur (some c)).next t = st.next t
        rw [setNext_get, if_neg htc]
      rw [hs] at h
      cases ht : st.next t with
      | none => rw [ht] at h; exact absurd h (by simp)
      | some v =>
        rw [ht] at h
        rcases ih v u h with hold | ⟨huc, j, hj, hreach⟩
        · left
          simp only [nextIter, ht]
          exact hold
        · refine Or.inr ⟨huc, j + 1, by omega, ?_⟩
          simp only [nextIter, ht]
          exact hreach

end A2
namespace A2

/-- `countP` of a disjunction of pointwise-disjoint predicates adds up. -/
theorem countP_or_disjoint {α : Type} (p q : α → Bool) :
    ∀ l : List α, (∀ a ∈ l, ¬ (p a = true ∧ q a = true)) →
      l.countP (fun a => p a || q a) = l.countP p + l.countP q := by
  intro l
  induction l with
  | nil => intro _; rfl
  | cons a rest ih =>
    intro hdis
    have hrest := ih (fun b hb => hdis b (List.mem_cons_of_mem a hb))
    have ha := hdis a (List.mem_cons_self a rest)
    by_cases hp : p a = true
    · have hq : q a = false := by
        cases hqa : q a with
        | false => rfl
        | true => exact absurd ⟨hp, hqa⟩ ha
      simp [List.countP_cons, hp, hq, hrest]
      omega
    · have hp2 : p a = false := by
        cases hpa : p a with
        | false => rfl
        | true => exact absurd hpa hp
      by_cases hq : q a = true
      · simp [List.countP_cons, hp2, hq, hrest]
        omega
      · have hq2 : q a = false := by
          cases hqa : q a with
          | false => rfl
          | true => exact absurd hqa hq
        simp [List.countP_cons, hp2, hq2, hrest]

/-- Flipping one duplicate-free member of a list from false to true
raises a `countP` by one. -/
theorem countP_flip_one :
    ∀ (l : List Nat), l.Nodup → ∀ (c : Nat), c ∈ l →
      ∀ (p q : Nat → Bool), (∀ t ∈ l, t ≠ c → p t = q t) →
      p c = false → q c = true →
      l.countP q = l.countP p + 1 := by
  intro l
  induction l with
  | nil => intro _ c hc; exact absurd hc (List.not_mem_nil _)
  | cons a rest ih =>
    intro hn c hc p q hpt hpc hqc
    by_cases hac : a = c
    · have hrest_eq : rest.countP p = rest.countP q := by
        apply List.countP_congr
        intro t ht
        have htc : t ≠ c := by
          intro he
          exact (List.nodup_cons.mp hn).1 (hac ▸ he ▸ ht)
        rw [hpt t (List.mem_cons_of_mem _ ht) htc]
      rw [List.countP_cons, List.countP_cons, hac, hpc, hqc, hrest_eq]
      simp
    · have hcr : c ∈ rest := by
        rcases List.mem_cons.mp hc with he | h
        · exact absurd he.symm hac
        · exact h
      have hpa : p a = q a :=
        hpt a (List.mem_cons_self _ _) (fun he => hac he)
      have hres := ih (List.nodup_cons.mp hn).2 c hcr p q
        (fun t ht hne => hpt t (List.mem_cons_of_mem _ ht) hne) hpc hqc
      rw [List.countP_cons, List.countP_cons, hpa, hres]
      omega

end A2
namespace A2

/-- At an outer-loop selection (no current tail), the source's count of
adjacent triangles with `next_tri` unset coincides, on every unassigned
triangle, with the number of still-unassigned adjacent triangles. -/
theorem codeCount_eq_start (adj : Nat → List Nat) (tds : List Nat)
    (hsym : ∀ a b, a ∈ adj b → b ∈ adj a)
    (hclo : ∀ t u, u ∈ adj t → t ∈ tds → u ∈ tds)
    (st : StripState) (remaining : List Nat)
    (hInv : StripInv adj tds st remaining none) :
    ∀ t ∈ remaining, countAdjNonStrip adj st t =
      unassignedAdjCount adj remaining t := by
  intro t ht
  unfold countAdjNonStrip unassignedAdjCount
  apply List.countP_congr
  intro v hv
  by_cases hvr : v ∈ remaining
  · simp [hvr, (hInv.fresh v hvr).1]
  · cases hnv : st.next v with
    | some w => simp [hnv, hvr]
    | none =>
      exfalso
      have hvt : v ∈ tds := hclo t v hv (hInv.remSub t ht)
      exact hInv.sealed v hvt hvr hnv (by simp) t (hsym v t hv) ht

/-- At an inner-loop selection with tail `cur`, the source's count
exceeds the number of still-unassigned adjacent triangles by exactly
one (the tail itself), on every candidate. -/
theorem codeCount_eq_ext (adj : Nat → List Nat) (tds : List Nat)
    (hsym : ∀ a b, a ∈ adj b → b ∈ adj a)
    (hclo : ∀ t u, u ∈ adj t → t ∈ tds → u ∈ tds)
    (hadn : ∀ t, (adj t).Nodup)
    (st : StripState) (remaining : List Nat) (cur : Nat)
    (hInv : StripInv adj tds st remaining (some cur)) :
    ∀ u, u ∈ remaining → cur ∈ adj u →
      countAdjNonStrip adj st u = unassignedAdjCount adj remaining u + 1 := by
  intro u hu hcu
  obtain ⟨hct, hcr, hcn⟩ := hInv.tailSpec cur rfl
  unfold countAdjNonStrip unassignedAdjCount
  have hshape : (adj u).countP (fun v => (st.next v).isNone) =
      (adj u).countP (fun v => decide (v ∈ remaining) || (v == cur)) := by
    apply List.countP_congr
    intro v hv
    by_cases hvr : v ∈ remaining
    · simp [hvr, (hInv.fresh v hvr).1]
    · by_cases hvc : v = cur
      · subst hvc
        simp [hcn, hvr]
      · cases hnv : st.next v with
        | some w => simp [hnv, hvr, hvc]
        | none =>
          exfalso
          have hvt : v ∈ tds := hclo u v hv (hInv.remSub u hu)
          have hntl : (some cur : Option Nat) ≠ some v := by
            intro he
            exact hvc (Option.some.inj he).symm
          exact hInv.sealed v hvt hvr hnv hntl u (hsym v u hv) hu
  rw [hshape]
  rw [countP_or_disjoint (fun v => decide (v ∈ remaining)) (fun v => v == cur)
    (adj u) ?hdis]
  · have : (adj u).countP (fun v => v == cur) = 1 := by
      have := List.count_eq_one_of_mem (hadn u) hcu
      simpa [List.count] using this
    rw [this]
  case hdis =>
    intro a _ hand
    obtain ⟨h1, h2⟩ := hand
    have : a = cur := by simpa using h2
    subst this
    exact hcr (by simpa using h1)

end A2
namespace A2

theorem go_none_nil (adj : Nat → List Nat) (n : Nat) (st : StripState)
    (cnt : Nat) (evs : List Event) :
    go adj (n + 1) st [] none cnt evs = (st, cnt, evs) := rfl

theorem go_none_cons (adj : Nat → List Nat) (n : Nat) (st : StripState)
    (r0 : Nat) (rrest : List Nat) (cnt : Nat) (evs : List Event) :
    go adj (n + 1) st (r0 :: rrest) none cnt evs =
      go adj n st ((r0 :: rrest).erase (minFold adj st rrest r0))
        (some (minFold adj st rrest r0)) (cnt + 1)
        (evs ++ [⟨true, none, r0 :: rrest, r0 :: rrest,
          minFold adj st rrest r0⟩]) := rfl

theorem go_some_nil (adj : Nat → List Nat) (n : Nat) (st : StripState)
    (remaining : List Nat) (cur : Nat) (cnt : Nat) (evs : List Event)
    (h : (adj cur).dedup.filter (fun x => decide (x ∈ remaining)) = []) :
    go adj (n + 1) st remaining (some cur) cnt evs =
      go adj n st remaining none cnt evs := by
  simp only [go, h]

theorem go_some_cons (adj : Nat → List Nat) (n : Nat) (st : StripState)
    (remaining : List Nat) (cur : Nat) (cnt : Nat) (evs : List Event)
    (c0 : Nat) (crest : List Nat)
    (h : (adj cur).dedup.filter (fun x => decide (x ∈ remaining)) = c0 :: crest) :
    go adj (n + 1) st remaining (some cur) cnt evs =
      go adj n
        (setPrev (setNext st cur (some (minFold adj st crest c0)))
          (minFold adj st crest c0) (some cur))
        (remaining.erase (minFold adj st crest c0))
        (some (minFold adj st crest c0)) cnt
        (evs ++ [⟨false, some cur, c0 :: crest, remaining,
          minFold adj st crest c0⟩]) := by
  simp only [go, h]

end A2
namespace A2

/-- Starting a new strip at an unassigned triangle `c` preserves the
invariant: the state is untouched, `c` leaves the unassigned set and
becomes the current tail. -/
theorem stripInv_start_step (adj : Nat → List Nat) (tds : List Nat)
    (st : StripState) (remaining : List Nat) (c : Nat)
    (hnd : remaining.Nodup) (hc : c ∈ remaining)
    (hInv : StripInv adj tds st remaining none) :
    StripInv adj tds st (remaining.erase c) (some c) := by
  refine ⟨?_, hInv.consist, hInv.linkDom, hInv.acyclic, ?_, ?_, ?_, ?_⟩
  · intro t ht
    exact hInv.fresh t (List.mem_of_mem_erase ht)
  · intro t ht
    exact hInv.remSub t (List.mem_of_mem_erase ht)
  · intro d hd
    rw [← Option.some.inj hd]
    refine ⟨hInv.remSub c hc, ?_, (hInv.fresh c hc).1⟩
    intro hmem
    exact ((List.Nodup.mem_erase_iff hnd).mp hmem).1 rfl
  · intro a hat har hna htl
    have hac : a ≠ c := by
      intro he
      exact htl (by rw [he])
    have harem : a ∉ remaining := by
      intro hmem
      exact har ((List.mem_erase_of_ne hac).mpr hmem)
    intro u hu
    intro humem
    exact hInv.sealed a hat harem hna (by simp) u hu
      (List.mem_of_mem_erase humem)
  · intro t htds htrem
    by_cases htc : t = c
    · subst htc
      refine ⟨t, ⟨(hInv.fresh t hc).2, 0, rfl⟩, ?_⟩
      intro h2 hh2
      obtain ⟨hph2, k, hreach⟩ := hh2
      cases k with
      | zero => exact Option.some.inj hreach
      | succ m =>
        exfalso
        exact no_reach_unlinked st hInv.consist t (hInv.fresh t hc).2
          (m + 1) h2 (by omega) hreach
    · have : t ∉ remaining := by
        intro hmem
        exact htrem ((List.mem_erase_of_ne htc).mpr hmem)
      exact hInv.chains t htds this

end A2
namespace A2

/-- Extending the current strip from tail `cur` to the unassigned
adjacent triangle `c` (linking `cur.next_tri = c`, `c.prev_tri = cur`)
preserves the invariant. -/
theorem stripInv_ext_step (adj : Nat → List Nat) (tds : List Nat)
    (hsym : ∀ a b, a ∈ adj b → b ∈ adj a)
    (st : StripState) (remaining : List Nat) (cur c : Nat)
    (hnd : remaining.Nodup) (hc : c ∈ remaining) (hadj : c ∈ adj cur)
    (hInv : StripInv adj tds st remaining (some cur)) :
    StripInv adj tds
      (setPrev (setNext st cur (some c)) c (some cur))
      (remaining.erase c) (some c) := by
  obtain ⟨hct, hcr, hcn⟩ := hInv.tailSpec cur rfl
  have hcc : c ≠ cur := fun he => hcr (he ▸ hc)
  have hfc := hInv.fresh c hc
  set st2 := setPrev (setNext st cur (some c)) c (some cur) with hst2
  have hnext : ∀ a, st2.next a = if a = cur then some c else st.next a :=
    fun a => setNext_get st cur (some c) a
  have hprev : ∀ b, st2.prev b = if b = c then some cur else st.prev b :=
    fun b => setPrev_get (setNext st cur (some c)) c (some cur) b
  have hnone_from_c : ∀ k, 0 < k → nextIter st k c = none := by
    intro k hk
    obtain ⟨m, rfl⟩ : ∃ m, k = m + 1 := ⟨k - 1, by omega⟩
    simp only [nextIter, hfc.1]
  have hnone_from_c2 : ∀ k, 0 < k → nextIter st2 k c = none := by
    intro k hk
    obtain ⟨m, rfl⟩ : ∃ m, k = m + 1 := ⟨k - 1, by omega⟩
    have : st2.next c = none := by rw [hnext c, if_neg hcc]; exact hfc.1
    simp only [nextIter, this]
  refine ⟨?_, ?_, ?_, ?_, ?_, ?_, ?_, ?_⟩
  -- fresh
  · intro t ht
    obtain ⟨htc, htm⟩ := (List.Nodup.mem_erase_iff hnd).mp ht
    have htcur : t ≠ cur := fun he => hcr (he ▸ htm)
    constructor
    · rw [hnext t, if_neg htcur]
      exact (hInv.fresh t htm).1
    · rw [hprev t, if_neg htc]
      exact (hInv.fresh t htm).2
  -- consist
  · intro a b
    rw [hnext a, hprev b]
    by_cases ha : a = cur
    · rw [if_pos ha]
      by_cases hb : b = c
      · rw [if_pos hb]
        constructor
        · intro _; rw [ha]
        · intro _; rw [hb]
      · rw [if_neg hb]
        constructor
        · intro h
          exact absurd (Option.some.inj h).symm hb
        · intro h
          have h2 := (hInv.consist cur b).mpr (by rw [← ha]; exact h)
          rw [hcn] at h2
          exact Option.noConfusion h2
    · rw [if_neg ha]
      by_cases hb : b = c
      · rw [if_pos hb]
        constructor
        · intro h
          have h2 := (hInv.consist a b).mp h
          rw [hb, hfc.2] at h2
          exact Option.noConfusion h2
        · intro h
          exact absurd (Option.some.inj h).symm ha
      · rw [if_neg hb]
        exact hInv.consist a b
  -- linkDom
  · intro a b h
    rw [hnext a] at h
    by_cases ha : a = cur
    · rw [if_pos ha] at h
      have hb : b = c := (Option.some.inj h).symm
      rw [ha, hb]
      exact ⟨hct, hInv.remSub c hc, hadj, hsym c cur hadj⟩
    · rw [if_neg ha] at h
      exact hInv.linkDom a b h
  -- acyclic
  · intro t k hk hcycle
    rcases nextIter_update_bwd st cur c hfc.1 hcc k t t hcycle with
      hold | ⟨hteq, j, hj, hr⟩
    · exact hInv.acyclic t k hk hold
    · rw [hteq] at hcycle
      rw [hnone_from_c2 k hk] at hcycle
      exact Option.noConfusion hcycle
  -- remSub
  · intro t ht
    exact hInv.remSub t (List.mem_of_mem_erase ht)
  -- tailSpec
  · intro d hd
    rw [← Option.some.inj hd]
    refine ⟨hInv.remSub c hc, ?_, ?_⟩
    · intro hmem
      exact ((List.Nodup.mem_erase_iff hnd).mp hmem).1 rfl
    · rw [hnext c, if_neg hcc]
      exact hfc.1
  -- sealed
  · intro a hat har hna htl
    have hac : a ≠ c := fun he => htl (by rw [he])
    have hacur : a ≠ cur := by
      intro he
      rw [hnext a, if_pos he] at hna
      exact Option.noConfusion hna
    have harem : a ∉ remaining := by
      intro hmem
      exact har ((List.mem_erase_of_ne hac).mpr hmem)
    have hna2 : st.next a = none := by
      rw [hnext a, if_neg hacur] at hna
      exact hna
    intro u hu humem
    exact hInv.sealed a hat harem hna2
      (fun he => hacur (Option.some.inj he).symm) u hu
      (List.mem_of_mem_erase humem)
  -- chains
  · intro t htds htrem
    by_cases htc : t = c
    · obtain ⟨h, ⟨hph, k, hreach⟩, huniq⟩ := hInv.chains cur hct hcr
      have hhc : h ≠ c := by
        intro he
        rw [he] at hreach
        cases k with
        | zero =>
          exact hcc (Option.some.inj hreach)
        | succ m =>
          rw [hnone_from_c (m + 1) (by omega)] at hreach
          exact Option.noConfusion hreach
      refine ⟨h, ⟨?_, k + 1, ?_⟩, ?_⟩
      · rw [hprev h, if_neg hhc]
        exact hph
      · rw [htc, nextIter_add st2 k 1 h,
          nextIter_update_fwd st cur c hcn k h cur hreach]
        simp only [Option.some_bind, nextIter]
        rw [hnext cur, if_pos rfl]
      · intro h2 hh2
        obtain ⟨hph2, k2, hr2⟩ := hh2
        rw [htc] at hr2
        have hh2c : h2 ≠ c := by
          intro he
          rw [he, hprev c, if_pos rfl] at hph2
          exact Option.noConfusion hph2
        cases k2 with
        | zero => exact absurd (Option.some.inj hr2) hh2c
        | succ m2 =>
          rcases nextIter_update_bwd st cur c hfc.1 hcc (m2 + 1) h2 c hr2 with
            hold | ⟨_, j, hj, hrcur⟩
          · exact absurd hold
              (no_reach_unlinked st hInv.consist c hfc.2 (m2 + 1) h2 (by omega))
          · have hph2s : st.prev h2 = none := by
              rw [hprev h2, if_neg hh2c] at hph2
              exact hph2
            exact huniq h2 ⟨hph2s, j, hrcur⟩
    · have htrem2 : t ∉ remaining := by
        intro hmem
        exact htrem ((List.mem_erase_of_ne htc).mpr hmem)
      obtain ⟨h, ⟨hph, k, hreach⟩, huniq⟩ := hInv.chains t htds htrem2
      have hhc : h ≠ c := by
        intro he
        rw [he] at hreach
        cases k with
        | zero => exact htc (Option.some.inj hreach).symm
        | succ m =>
          rw [hnone_from_c (m + 1) (by omega)] at hreach
          exact Option.noConfusion hreach
      refine ⟨h, ⟨?_, k, ?_⟩, ?_⟩
      · rw [hprev h, if_neg hhc]
        exact hph
      · exact nextIter_update_fwd st cur c hcn k h t hreach
      · intro h2 hh2
        obtain ⟨hph2, k2, hr2⟩ := hh2
        have hh2c : h2 ≠ c := by
          intro he
          rw [he, hprev c, if_pos rfl] at hph2
          exact Option.noConfusion hph2
        have hph2s : st.prev h2 = none := by
          rw [hprev h2, if_neg hh2c] at hph2
          exact hph2
        rcases nextIter_update_bwd st cur c hfc.1 hcc k2 h2 t hr2 with
          hold | ⟨hteq, j, hj, hrcur⟩
        · exact huniq h2 ⟨hph2s, k2, hold⟩
        · exact absurd hteq htc
end A2
namespace A2

/-- Master invariant lemma for `build_tristrips`: from any configuration
satisfying the loop invariant, with adequate fuel, the loop ends in a
state whose `next`/`prev` links are mutually consistent, stay within the
triangle set and the adjacency relation, are acyclic, put every triangle
on exactly one chain, and whose reported count equals the number of
chain heads; and (for set-like adjacency) every recorded selection
minimises the number of still-unassigned adjacent triangles over its
candidate pool. -/
theorem go_master (adj : Nat → List Nat) (tds : List Nat)
    (hsym : ∀ a b, a ∈ adj b → b ∈ adj a) (htds : tds.Nodup) :
    ∀ fuel st remaining tl cnt evs,
      2 * remaining.length + (if tl.isSome then 1 else 0) < fuel →
      remaining.Nodup →
      StripInv adj tds st remaining tl →
      cnt = tds.countP (fun t => !(decide (t ∈ remaining)) && (st.prev t).isNone) →
      (∀ a b, (go adj fuel st remaining tl cnt evs).1.next a = some b ↔
          (go adj fuel st remaining tl cnt evs).1.prev b = some a) ∧
      (∀ a b, (go adj fuel st remaining tl cnt evs).1.next a = some b →
          a ∈ tds ∧ b ∈ tds ∧ b ∈ adj a ∧ a ∈ adj b) ∧
      (∀ t k, 0 < k → nextIter (go adj fuel st remaining tl cnt evs).1 k t ≠ some t) ∧
      (∀ t ∈ tds, ∃! h, (go adj fuel st remaining tl cnt evs).1.prev h = none ∧
          ∃ k, nextIter (go adj fuel st remaining tl cnt evs).1 k h = some t) ∧
      (go adj fuel st remaining tl cnt evs).2.1 =
        tds.countP (fun t => ((go adj fuel st remaining tl cnt evs).1.prev t).isNone) ∧
      ((∀ t u, u ∈ adj t → t ∈ tds → u ∈ tds) → (∀ t, (adj t).Nodup) →
        ∀ ev ∈ (go adj fuel st remaining tl cnt evs).2.2, ev ∈ evs ∨
          ∀ u ∈ ev.pool, unassignedAdjCount adj ev.remaining ev.chosen ≤
            unassignedAdjCount adj ev.remaining u) := by
  intro fuel
  induction fuel with
  | zero => intro st remaining tl cnt evs hf _ _ _; omega
  | succ n ih =>
    intro st remaining tl cnt evs hf hnd hInv hcnt
    cases tl with
    | none =>
      cases remaining with
      | nil =>
        rw [go_none_nil]
        refine ⟨hInv.consist, hInv.linkDom, hInv.acyclic, ?_, ?_, ?_⟩
        · intro t ht
          exact hInv.chains t ht (List.not_mem_nil t)
        · rw [hcnt]
          apply List.countP_congr
          intro t _
          simp
        · intro _ _ ev hev
          exact Or.inl hev
      | cons r0 rrest =>
        obtain ⟨hmem, hmin⟩ := minFold_spec adj st rrest r0
        have herase : ((r0 :: rrest).erase (minFold adj st rrest r0)).length =
            rrest.length := by
          rw [List.length_erase_of_mem hmem]
          simp
        have hfuel : 2 * ((r0 :: rrest).erase (minFold adj st rrest r0)).length +
            (if (some (minFold adj st rrest r0)).isSome then 1 else 0) < n := by
          rw [herase]
          simp only [Option.isSome_some, if_pos]
          simp only [List.length_cons] at hf
          omega
        have hnd2 : ((r0 :: rrest).erase (minFold adj st rrest r0)).Nodup :=
          hnd.erase _
        have hinv2 := stripInv_start_step adj tds st (r0 :: rrest)
          (minFold adj st rrest r0) hnd hmem hInv
        have hcnt2 : cnt + 1 = tds.countP (fun t =>
            !(decide (t ∈ (r0 :: rrest).erase (minFold adj st rrest r0))) &&
            (st.prev t).isNone) := by
          rw [hcnt]
          have := countP_flip_one tds htds (minFold adj st rrest r0)
            (hInv.remSub _ hmem)
            (fun t => !(decide (t ∈ (r0 :: rrest))) && (st.prev t).isNone)
            (fun t => !(decide (t ∈ (r0 :: rrest).erase (minFold adj st rrest r0))) &&
              (st.prev t).isNone)
            (fun t _ hne => by simp [List.mem_erase_of_ne hne])
            (by simp [hmem])
            (by simp [List.Nodup.mem_erase_iff hnd, (hInv.fresh _ hmem).2])
          omega
        obtain ⟨i1, i2, i3, i4, i5, i6⟩ := ih st
          ((r0 :: rrest).erase (minFold adj st rrest r0))
          (some (minFold adj st rrest r0)) (cnt + 1)
          (evs ++ [⟨true, none, r0 :: rrest, r0 :: rrest, minFold adj st rrest r0⟩])
          hfuel hnd2 hinv2 hcnt2
        rw [go_none_cons]
        refine ⟨i1, i2, i3, i4, i5, ?_⟩
        intro hclo hadn ev hev
        rcases i6 hclo hadn ev hev with hin | hs
        · rcases List.mem_append.mp hin with h | h
          · exact Or.inl h
          · right
            rw [List.eq_of_mem_singleton h]
            intro u hu
            dsimp only at hu ⊢
            have hstart := codeCount_eq_start adj tds hsym hclo st (r0 :: rrest) hInv
            have e1 := hstart _ hmem
            have e2 := hstart u hu
            have e3 := hmin u hu
            omega
        · exact Or.inr hs
    | some cur =>
      cases hcands : (adj cur).dedup.filter (fun x => decide (x ∈ remaining)) with
      | nil =>
        rw [go_some_nil adj n st remaining cur cnt evs hcands]
        have hfuel : 2 * remaining.length +
            (if (none : Option Nat).isSome then 1 else 0) < n := by
          simp only [Option.isSome_none] at hf ⊢
          simp only [Option.isSome_some, if_pos] at hf
          simp
          omega
        have hinv2 : StripInv adj tds st remaining none := by
          refine ⟨hInv.fresh, hInv.consist, hInv.linkDom, hInv.acyclic,
            hInv.remSub, ?_, ?_, hInv.chains⟩
          · intro d hd
            exact Option.noConfusion hd
          · intro a hat har hna _
            by_cases hacur : a = cur
            · intro u hu humem
              have : u ∈ (adj cur).dedup.filter (fun x => decide (x ∈ remaining)) := by
                rw [List.mem_filter]
                exact ⟨List.mem_dedup.mpr (hacur ▸ hu), by simp [humem]⟩
              rw [hcands] at this
              exact List.not_mem_nil u this
            · exact hInv.sealed a hat har hna
                (fun he => hacur (Option.some.inj he).symm)
        exact ih st remaining none cnt evs hfuel hnd hinv2 hcnt
      | cons c0 crest =>
        obtain ⟨hmem0, hmin⟩ := minFold_spec adj st crest c0
        have hmemc : minFold adj st crest c0 ∈
            (adj cur).dedup.filter (fun x => decide (x ∈ remaining)) := by
          rw [hcands]
          exact hmem0
        have hcrem : minFold adj st crest c0 ∈ remaining := by
          have := (List.mem_filter.mp hmemc).2
          simpa using this
        have hcadj : minFold adj st crest c0 ∈ adj cur :=
          List.mem_dedup.mp (List.mem_filter.mp hmemc).1
        obtain ⟨hct, hcr, hcn⟩ := hInv.tailSpec cur rfl
        have hcc : minFold adj st crest c0 ≠ cur := fun he => hcr (he ▸ hcrem)
        have herase : (remaining.erase (minFold adj st crest c0)).length + 1 =
            remaining.length := by
          rw [List.length_erase_of_mem hcrem]
          have : 0 < remaining.length := List.length_pos.mpr
            (List.ne_nil_of_mem hcrem)
          omega
        have hfuel : 2 * (remaining.erase (minFold adj st crest c0)).length +
            (if (some (minFold adj st crest c0)).isSome then 1 else 0) < n := by
          simp only [Option.isSome_some, if_pos] at hf ⊢
          omega
        have hnd2 : (remaining.erase (minFold adj st crest c0)).Nodup := hnd.erase _
        have hinv2 := stripInv_ext_step adj tds hsym st remaining cur
          (minFold adj st crest c0) hnd hcrem hcadj hInv
        have hcnt2 : cnt = tds.countP (fun t =>
            !(decide (t ∈ remaining.erase (minFold adj st crest c0))) &&
            (((setPrev (setNext st cur (some (minFold adj st crest c0)))
              (minFold adj st crest c0) (some cur)).prev t).isNone)) := by
          rw [hcnt]
          apply List.countP_congr
          intro t _
          by_cases htc : t = minFold adj st crest c0
          · rw [htc]
            have h1 : (setPrev (setNext st cur (some (minFold adj st crest c0)))
                (minFold adj st crest c0) (some cur)).prev (minFold adj st crest c0) =
                some cur := by
              rw [setPrev_get, if_pos rfl]
            simp [h1, hcrem]
          · have h1 : (setPrev (setNext st cur (some (minFold adj st crest c0)))
                (minFold adj st crest c0) (some cur)).prev t = st.prev t := by
              rw [setPrev_get, if_neg htc]
              rfl
            simp [h1, List.mem_erase_of_ne htc]
        obtain ⟨i1, i2, i3, i4, i5, i6⟩ := ih
          (setPrev (setNext st cur (some (minFold adj st crest c0)))
            (minFold adj st crest c0) (some cur))
          (remaining.erase (minFold adj st crest c0))
          (some (minFold adj st crest c0)) cnt
          (evs ++ [⟨false, some cur, c0 :: crest, remaining, minFold adj st crest c0⟩])
          hfuel hnd2 hinv2 hcnt2
        rw [go_some_cons adj n st remaining cur cnt evs c0 crest hcands]
        refine ⟨i1, i2, i3, i4, i5, ?_⟩
        intro hclo hadn ev hev
        rcases i6 hclo hadn ev hev with hin | hs
        · rcases List.mem_append.mp hin with h | h
          · exact Or.inl h
          · right
            rw [List.eq_of_mem_singleton h]
            intro u hu
            dsimp only at hu ⊢
            have humem : u ∈ remaining ∧ u ∈ adj cur := by
              have : u ∈ (adj cur).dedup.filter (fun x => decide (x ∈ remaining)) := by
                rw [hcands]
                exact hu
              have h2 := List.mem_filter.mp this
              exact ⟨by simpa using h2.2, List.mem_dedup.mp h2.1⟩
            have hext := codeCount_eq_ext adj tds hsym hclo hadn st remaining cur hInv
            have e1 := hext _ hcrem (hsym _ cur hcadj)
            have e2 := hext u humem.1 (hsym u cur humem.2)
            have e3 := hmin u hu
            omega
        · exact Or.inr hs

end A2
namespace A2

/-- `go_master` instantiated at the initial configuration of
`buildTristrips`: an all-`None` pointer state and a symmetric adjacency
relation yield the six conclusions about the finished run. -/
theorem buildTristrips_master (tris : List Nat) (adj : Nat → List Nat)
    (st0 : StripState)
    (hfresh : ∀ t, st0.next t = none ∧ st0.prev t = none)
    (hsym : ∀ a b, a ∈ adj b → b ∈ adj a) :
    (∀ a b, (buildTristrips tris adj st0).1.next a = some b ↔
        (buildTristrips tris adj st0).1.prev b = some a) ∧
    (∀ a b, (buildTristrips tris adj st0).1.next a = some b →
        a ∈ tris.dedup ∧ b ∈ tris.dedup ∧ b ∈ adj a ∧ a ∈ adj b) ∧
    (∀ t k, 0 < k → nextIter (buildTristrips tris adj st0).1 k t ≠ some t) ∧
    (∀ t ∈ tris.dedup, ∃! h, (buildTristrips tris adj st0).1.prev h = none ∧
        ∃ k, nextIter (buildTristrips tris adj st0).1 k h = some t) ∧
    (buildTristrips tris adj st0).2.1 =
      tris.dedup.countP (fun t => ((buildTristrips tris adj st0).1.prev t).isNone) ∧
    ((∀ t u, u ∈ adj t → t ∈ tris.dedup → u ∈ tris.dedup) →
      (∀ t, (adj t).Nodup) →
      ∀ ev ∈ (buildTristrips tris adj st0).2.2, ev ∈ ([] : List Event) ∨
        ∀ u ∈ ev.pool, unassignedAdjCount adj ev.remaining ev.chosen ≤
          unassignedAdjCount adj ev.remaining u) := by
  have hinv0 : StripInv adj tris.dedup st0 tris.dedup none := by
    refine ⟨fun t _ => hfresh t, ?_, ?_, ?_, fun t ht => ht, ?_, ?_, ?_⟩
    · intro a b
      simp [(hfresh a).1, (hfresh b).2]
    · intro a b h
      rw [(hfresh a).1] at h
      exact Option.noConfusion h
    · intro t k hk
      cases k with
      | zero => omega
      | succ m => simp [nextIter, (hfresh t).1]
    · intro c hc
      exact Option.noConfusion hc
    · intro a hat har
      exact absurd hat har
    · intro t ht htn
      exact absurd ht htn
  have hcnt0 : 0 = tris.dedup.countP
      (fun t => !(decide (t ∈ tris.dedup)) && (st0.prev t).isNone) := by
    symm
    rw [List.countP_eq_zero]
    intro t ht
    simp [ht]
  have hfuel : 2 * tris.dedup.length +
      (if (none : Option Nat).isSome then 1 else 0) <
      2 * tris.dedup.length + 1 := by
    simp
  exact go_master adj tris.dedup hsym (List.nodup_dedup tris)
    (2 * tris.dedup.length + 1) st0 tris.dedup none 0 [] hfuel
    (List.nodup_dedup tris) hinv0 hcnt0

/-- C3: started from fresh pointers (all `next_tri`/`prev_tri` unset) on
triangles whose adjacency relation is symmetric (as the data model of
`read_triangles` guarantees), `build_tristrips` partitions the input
triangle set into disjoint simple chains: the final `next_tri`/`prev_tri`
links are mutually consistent, every link joins two input triangles each
present in the other's adjacency list, no chain is cyclic (no positive
number of `next_tri` steps returns to the start), every input triangle is
reachable from exactly one chain head (none omitted, none on two chains),
and the reported strip count equals the number of chain heads, i.e. of
chains created. -/
theorem buildTristrips_chain_partition (tris : List Nat) (adj : Nat → List Nat)
    (st0 : StripState)
    (hfresh : ∀ t, st0.next t = none ∧ st0.prev t = none)
    (hsym : ∀ a b, a ∈ adj b → b ∈ adj a) :
    (∀ a b, (buildTristrips tris adj st0).1.next a = some b ↔
        (buildTristrips tris adj st0).1.prev b = some a) ∧
    (∀ a b, (buildTristrips tris adj st0).1.next a = some b →
        a ∈ tris ∧ b ∈ tris ∧ b ∈ adj a ∧ a ∈ adj b) ∧
    (∀ t k, 0 < k → nextIter (buildTristrips tris adj st0).1 k t ≠ some t) ∧
    (∀ t ∈ tris, ∃! h, (buildTristrips tris adj st0).1.prev h = none ∧
        ∃ k, nextIter (buildTristrips tris adj st0).1 k h = some t) ∧
    (buildTristrips tris adj st0).2.1 =
      (tris.dedup.filter
        (fun t => ((buildTristrips tris adj st0).1.prev t).isNone)).length := by
  obtain ⟨i1, i2, i3, i4, i5, _⟩ := buildTristrips_master tris adj st0 hfresh hsym
  refine ⟨i1, ?_, i3, ?_, ?_⟩
  · intro a b h
    obtain ⟨ha, hb, h1, h2⟩ := i2 a b h
    exact ⟨List.mem_dedup.mp ha, List.mem_dedup.mp hb, h1, h2⟩
  · intro t ht
    exact i4 t (List.mem_dedup.mpr ht)
  · rw [i5, List.countP_eq_length_filter]

/-- C3 witness: a single isolated triangle starting from fresh pointers;
the reported count equals the number of chain heads. -/
theorem buildTristrips_chain_partition_witness :
    (buildTristrips [0] (fun _ => ([] : List Nat))
        ⟨fun _ => none, fun _ => none⟩).2.1 =
      (([0] : List Nat).dedup.filter (fun t =>
        ((buildTristrips [0] (fun _ => ([] : List Nat))
          ⟨fun _ => none, fun _ => none⟩).1.prev t).isNone)).length :=
  (buildTristrips_chain_partition [0] (fun _ => ([] : List Nat))
    ⟨fun _ => none, fun _ => none⟩ (fun _ => ⟨rfl, rfl⟩)
    (fun a _ h => absurd h (List.not_mem_nil a))).2.2.2.2

/-- C4: under the `read_triangles` data model (symmetric, duplicate-free
adjacency lists closed over the triangle set) and fresh initial pointers,
every selection `build_tristrips` makes is greedy-optimal: each recorded
call of `get_triangle_with_min_adj_non_strip_triangles` chooses, from its
candidate pool (all still-unassigned triangles when starting a strip; the
tail's still-unassigned adjacent triangles when extending one), a
triangle with the fewest still-unassigned adjacent triangles, where a
triangle is unassigned exactly when it is still in
`non_strip_triangles`. -/
theorem buildTristrips_greedy_min (tris : List Nat) (adj : Nat → List Nat)
    (st0 : StripState)
    (hfresh : ∀ t, st0.next t = none ∧ st0.prev t = none)
    (hsym : ∀ a b, a ∈ adj b → b ∈ adj a)
    (hclo : ∀ t u, u ∈ adj t → t ∈ tris → u ∈ tris)
    (hadn : ∀ t, (adj t).Nodup) :
    ∀ ev ∈ (buildTristrips tris adj st0).2.2, ∀ u ∈ ev.pool,
      unassignedAdjCount adj ev.remaining ev.chosen ≤
        unassignedAdjCount adj ev.remaining u := by
  obtain ⟨_, _, _, _, _, i6⟩ := buildTristrips_master tris adj st0 hfresh hsym
  intro ev hev
  have hclo2 : ∀ t u, u ∈ adj t → t ∈ tris.dedup → u ∈ tris.dedup := by
    intro t u hu ht
    exact List.mem_dedup.mpr (hclo t u hu (List.mem_dedup.mp ht))
  rcases i6 hclo2 hadn ev hev with h | h
  · exact absurd h (List.not_mem_nil ev)
  · exact h

/-- C4 witness: on a single isolated triangle the one recorded selection
(starting the only strip, pool and unassigned set both `[0]`) satisfies
the greedy bound at its only candidate. -/
theorem buildTristrips_greedy_min_witness :
    unassignedAdjCount (fun _ => ([] : List Nat)) [0] 0 ≤
      unassignedAdjCount (fun _ => ([] : List Nat)) [0] 0 :=
  buildTristrips_greedy_min [0] (fun _ => ([] : List Nat))
    ⟨fun _ => none, fun _ => none⟩ (fun _ => ⟨rfl, rfl⟩)
    (fun a _ h => absurd h (List.not_mem_nil a))
    (fun _ u hu _ => absurd hu (List.not_mem_nil u))
    (fun _ => List.nodup_nil)
    ⟨true, none, [0], [0], 0⟩ (by decide) 0 (by decide)

end A2
